import Mathlib

set_option maxRecDepth 100000

/-!
Verification of `memory-mirror` (`git_mirror_exporter.py`) against its
natural-language specification.

Text is modelled as `List Char` (Python `str`, ASCII reading of the regex
character classes: `\d` is `0-9`, `\w` is `A-Za-z0-9_`).  The three
`re.sub` calls of `redact_content` are modelled by deterministic scanners
that mirror the leftmost, greedy, backtracking behaviour of the Python
patterns; the derivation of each matcher from its pattern is noted at the
matcher.  File-system and process effects of the export driver are
modelled by explicit oracles (nonce generator results, save outcomes, git
outcomes, clock readings) and a chronological list of file writes.
-/

namespace GitMirror

/-- ASCII word character, the `\b` class of Python `re` restricted to ASCII. -/
def wordChar (c : Char) : Bool := c.isAlpha || c.isDigit || c == '_'

/-- Character class `[A-Za-z0-9._%+-]`, the local part of the e-mail pattern. -/
def localChar (c : Char) : Bool :=
  c.isAlpha || c.isDigit || c == '.' || c == '_' || c == '%' || c == '+' || c == '-'

/-- Character class `[A-Za-z0-9.-]`, the domain part of the e-mail pattern. -/
def domChar (c : Char) : Bool := c.isAlpha || c.isDigit || c == '.' || c == '-'

/-- Character class `[A-Z|a-z]`, the final part of the e-mail pattern (the bar
is a literal member of the class as written in the source). -/
def tldChar (c : Char) : Bool := c.isAlpha || c == '|'

/-- Attempt of `[A-Za-z0-9._%+-]+@[A-Za-z0-9.-]+\.[A-Z|a-z]{2,}` at the head of
`s`, returning the length of the match if any.  The greedy local run must be
followed directly by `@` (no `@` occurs inside the run, so local-part
backtracking cannot succeed); the greedy domain run is then split at the
rightmost dot whose following `[A-Z|a-z]` run (read in the full string, since
`|` is outside the domain class) has length at least 2. -/
def emailHere (s : List Char) : Option Nat :=
  let a := s.takeWhile localChar
  if a.isEmpty then none
  else if (s.drop a.length).getD 0 ' ' = '@' then
    let s2 := s.drop (a.length + 1)
    let d := s2.takeWhile domChar
    match (List.range d.length).reverse.find? (fun k =>
      decide (1 ≤ k) && (d.getD k ' ' == '.') &&
      decide (2 ≤ ((s2.drop (k + 1)).takeWhile tldChar).length)) with
    | some k => some (a.length + 1 + k + 1 + ((s2.drop (k + 1)).takeWhile tldChar).length)
    | none => none
  else none

/-- Left word boundary `\b` before a pattern that starts with a digit: the
previous character (if any) must not be a word character. -/
def bdryL (prev : Option Char) : Bool :=
  match prev with
  | none => true
  | some c => !wordChar c

/-- Right word boundary `\b` after a pattern that ends with a digit: end of
input, or a non-word character follows. -/
def bdryR (rest : List Char) : Bool :=
  match rest with
  | [] => true
  | c :: _ => !wordChar c

/-- Attempt of `\b\d{3}-\d{3}-\d{4}\b` at the head of `s`, with `prev` the
character immediately before this position (none at the start of the text). -/
def phoneAt (prev : Option Char) (s : List Char) : Option Nat :=
  if bdryL prev
      && (s.getD 0 ' ').isDigit && (s.getD 1 ' ').isDigit && (s.getD 2 ' ').isDigit
      && (s.getD 3 ' ' == '-')
      && (s.getD 4 ' ').isDigit && (s.getD 5 ' ').isDigit && (s.getD 6 ' ').isDigit
      && (s.getD 7 ' ' == '-')
      && (s.getD 8 ' ').isDigit && (s.getD 9 ' ').isDigit && (s.getD 10 ' ').isDigit
      && (s.getD 11 ' ').isDigit
      && !wordChar (s.getD 12 ' ')
  then some 12 else none

/-- The allow-listed example address of `redact_content`. -/
def allowLit : List Char := "104.191.236.122".toList

/-- Fourth group `\d{1,3}` of the IP pattern and the trailing `\b`, entered
with `acc` characters of the match already read.  The greedy group must cover
its whole digit run so that the final `\b` can hold. -/
def ip4 (acc : Nat) (t4 : List Char) : Option Nat :=
  let g4 := (t4.takeWhile Char.isDigit).length
  if g4 < 1 || 3 < g4 then none else
  if bdryR (t4.drop g4) then some (acc + g4) else none

/-- Third group `\d{1,3}\.` of the IP pattern: the greedy group is forced to
cover its whole digit run (backtracking cannot place the dot inside a run). -/
def ip3 (acc : Nat) (t3 : List Char) : Option Nat :=
  let g3 := (t3.takeWhile Char.isDigit).length
  if g3 < 1 || 3 < g3 then none else
  match t3.drop g3 with
  | '.' :: t4 => ip4 (acc + g3 + 1) t4
  | _ => none

/-- Second group `\d{1,3}\.` of the IP pattern. -/
def ip2 (acc : Nat) (t2 : List Char) : Option Nat :=
  let g2 := (t2.takeWhile Char.isDigit).length
  if g2 < 1 || 3 < g2 then none else
  match t2.drop g2 with
  | '.' :: t3 => ip3 (acc + g2 + 1) t3
  | _ => none

/-- Attempt of `\b(?!104\.191\.236\.122)\d{1,3}\.\d{1,3}\.\d{1,3}\.\d{1,3}\b`
at the head of `s`.  Each of the four greedy `\d{1,3}` groups is forced to
cover its whole digit run (1 to 3 digits: for the first three, backtracking
cannot place the dot inside a run; for the last, the final `\b` forces it). -/
def ipAt (prev : Option Char) (s : List Char) : Option Nat :=
  if !bdryL prev then none else
  if allowLit.isPrefixOf s then none else
  let g1 := (s.takeWhile Char.isDigit).length
  if g1 < 1 || 3 < g1 then none else
  match s.drop g1 with
  | '.' :: t2 => ip2 (g1 + 1) t2
  | _ => none

/-- Replacement text of the e-mail substitution. -/
def phE : List Char := "<redacted.email>".toList

/-- Replacement text of the phone substitution. -/
def phP : List Char := "<redacted.phone>".toList

/-- Replacement text of the IP substitution. -/
def phI : List Char := "<redacted.ip>".toList

/-- Scan of the e-mail substitution: leftmost non-overlapping matches replaced,
scanning resumed after each match.  Fuel-driven; one unit of fuel per step and
every step consumes at least one character, so fuel `s.length` is enough. -/
def goE : Nat → List Char → List Char
  | 0, s => s
  | _ + 1, [] => []
  | f + 1, c :: r =>
    match emailHere (c :: r) with
    | some n => phE ++ goE f ((c :: r).drop n)
    | none => c :: goE f r

/-- First `re.sub` of `redact_content` (e-mail addresses). -/
def scanEmail (s : List Char) : List Char := goE s.length s

/-- Scan of the phone substitution, threading the previous character for `\b`.
Word-boundary tests always look at the original characters, so the previous
character after a skipped match is the last character of the matched span. -/
def goP : Nat → Option Char → List Char → List Char
  | 0, _, s => s
  | _ + 1, _, [] => []
  | f + 1, prev, c :: r =>
    match phoneAt prev (c :: r) with
    | some n => phP ++ goP f (some ((c :: r).getD (n - 1) c)) ((c :: r).drop n)
    | none => c :: goP f (some c) r

/-- Second `re.sub` of `redact_content` (phone numbers). -/
def scanPhone (s : List Char) : List Char := goP s.length none s

/-- Scan of the IP substitution, threading the previous character for `\b`. -/
def goI : Nat → Option Char → List Char → List Char
  | 0, _, s => s
  | _ + 1, _, [] => []
  | f + 1, prev, c :: r =>
    match ipAt prev (c :: r) with
    | some n => phI ++ goI f (some ((c :: r).getD (n - 1) c)) ((c :: r).drop n)
    | none => c :: goI f (some c) r

/-- Third `re.sub` of `redact_content` (IP addresses). -/
def scanIP (s : List Char) : List Char := goI s.length none s

/-- Model of `redact_content`: empty (or absent) text yields the empty string,
otherwise the three substitutions are applied in source order. -/
def redact_content (t : List Char) : List Char :=
  if t.isEmpty then [] else scanIP (scanPhone (scanEmail t))

/-- Configured chunk size. -/
def CHUNK_SIZE : Nat := 2000

/-- Loop of `chunk_content`: the Python loop `for i in range(0, len(text),
size)` emits `(i // size, text[i:i+size])`; this recursion walks the same
slices in order.  Fuel-driven, `size` is positive whenever it is called. -/
def chunkGo : Nat → List Char → Nat → Nat → List (Nat × List Char)
  | 0, _, _, _ => []
  | _ + 1, [], _, _ => []
  | f + 1, c :: r, size, k =>
    (k, (c :: r).take size) :: chunkGo f ((c :: r).drop size) size (k + 1)

/-- Model of `chunk_content`: empty text yields `[]`; a zero size makes the
Python `range` raise, which the handler turns into `[]` as well. -/
def chunk_content (t : List Char) (size : Nat) : List (Nat × List Char) :=
  if t.isEmpty then [] else if size = 0 then [] else chunkGo t.length t size 0

/-- Configured public tags, as the module-level constant `PUBLIC_TAGS`.  The
Python value is a `set`; the list order here is the literal's order, and all
statements about it are order-independent. -/
def PUBLIC_TAGS : List String := ["memory", "breakthrough", "historic", "system", "development"]

/-- Substring test (Python `in` on strings): some suffix of `s` has `pat` as
a prefix. -/
def isSubstr (pat : List Char) : List Char → Bool
  | [] => pat.isPrefixOf []
  | c :: r => pat.isPrefixOf (c :: r) || isSubstr pat r

/-- Model of `should_export_conversation`: an absent or empty content is
ineligible with no tags; otherwise each configured tag is looked up, as a
substring, in the lower-cased concatenation of content, one space, and the
summary (an absent or empty summary contributing nothing). -/
def should_export_conversation (content : List Char) (summary : Option (List Char)) :
    Bool × List String :=
  if content.isEmpty then (false, [])
  else
    let text := (content ++ ' ' :: summary.getD []).map Char.toLower
    let found := PUBLIC_TAGS.filter (fun tag => isSubstr tag.toList text)
    (!found.isEmpty, found)

/-- The `preview_240` field of an export item: the first 240 characters of the
redacted content, with a three-dot ellipsis appended when content was longer. -/
def previewOf (rc : List Char) : List Char :=
  rc.take 240 ++ (if 240 < rc.length then "...".toList else [])

/-- The `title` field: the summary if it is present and non-empty (Python
`or`), else `"<source> conversation"`, truncated to 80 characters. -/
def titleOf (source : String) (summary : Option (List Char)) : List Char :=
  (match summary with
   | some s => if s.isEmpty then (source ++ " conversation").toList else s
   | none => (source ++ " conversation").toList).take 80

/-- Python `str.split('.')`: the empty string yields `[""]`, and every dot
starts a new (possibly empty) part. -/
def splitDot : List Char → List (List Char)
  | [] => [[]]
  | c :: r =>
    if c = '.' then [] :: splitDot r
    else
      match splitDot r with
      | [] => [[c]]
      | h :: t => (c :: h) :: t

/-- Nonce-based filename construction of `get_nonce_filename` for a fresh
nonce: the base name is split at dots, and only the first two parts are used. -/
def mkNonceName (base : String) (n : String) : String :=
  match splitDot base.data with
  | p0 :: p1 :: _ => String.mk p0 ++ "_" ++ n ++ "." ++ String.mk p1
  | _ => base ++ "_" ++ n ++ ".json"

/-- Model of `get_nonce_filename`.  The nonce map is an association list
(Python dict, insertion ordered); `nonce` is the result of the single
`generate_nonce()` call made when the name misses the map (`none` models a
generation failure, which yields the plain fallback and records nothing). -/
def get_nonce_filename (base : String) (m : List (String × String)) (nonce : Option String) :
    String × List (String × String) :=
  match m.lookup base with
  | some fn => (fn, m)
  | none =>
    match nonce with
    | none => (base ++ ".json", m)
    | some n =>
      let fn := mkNonceName base n
      (fn, m ++ [(base, fn)])

/-- Model of `load_nonce_map`: a missing or unreadable file yields the empty
map, otherwise the persisted mappings are returned unchanged. -/
def load_nonce_map (file : Option (List (String × String))) : List (String × String) :=
  match file with
  | none => []
  | some m => m

/-- Nonce map: a Python dict modelled as an insertion-ordered association list. -/
abbrev NMap := List (String × String)

/-- Insertion into a sorted list of strings. -/
def insertSorted (x : String) : List String → List String
  | [] => [x]
  | y :: r => if x ≤ y then x :: y :: r else y :: insertSorted x r

/-- Model of Python `sorted` on a list of (distinct) strings. -/
def sortStrings (l : List String) : List String := l.foldr insertSorted []

/-- Directory constants of the exporter. -/
def REPO_DIR : String := "/srv/memory-git"

/-- Catalog directory. -/
def CATALOG_DIR : String := REPO_DIR ++ "/catalog"

/-- Tag shard directory. -/
def SHARD_TAG_DIR : String := CATALOG_DIR ++ "/shards/by_tag"

/-- Date shard directory. -/
def SHARD_DATE_DIR : String := CATALOG_DIR ++ "/shards/by_date"

/-- Chunk directory. -/
def CHUNK_DIR : String := REPO_DIR ++ "/chunks"

/-- Metadata directory. -/
def META_DIR : String := REPO_DIR ++ "/meta"

/-- Watermark file path (`LAST_EXPORT_FILE`). -/
def LAST_EXPORT_FILE : String := META_DIR ++ "/last_export.json"

/-- Nonce map file path (`NONCE_MAP_FILE`). -/
def NONCE_MAP_FILE : String := META_DIR ++ "/nonce_map.json"

/-- One row of the `chats` query: `id, created_at, source, content, summary`.
`createdIso` is `created_at.isoformat()` and `createdYM` its `"%Y-%m"`
rendering; timestamps are external data and enter the model pre-rendered. -/
structure DbRow where
  id : Nat
  createdIso : String
  createdYM : String
  source : String
  content : List Char
  summary : Option (List Char)
deriving DecidableEq, Repr

/-- The item dictionary built per exported conversation. -/
structure Item where
  id : Nat
  createdAt : String
  source : String
  title : List Char
  tags : List String
  summary : List Char
  chunkUrls : List String
  preview240 : List Char
deriving DecidableEq, Repr

/-- Contents of the JSON files the exporter writes. -/
inductive FVal where
  | chunkF (id ix : Nat) (createdAt source : String) (tags : List String) (content : List Char)
  | shardF (version generatedAt : String) (items : List Item)
  | searchF (version : String) (tokens : List (String × List String))
      (security accessNote : String)
  | nonceF (m : NMap)
  | buildF (generatedAt : String) (total newCount : Nat) (inc : Bool) (searchUrl : String)
  | lastF (iso : String) (completed : Bool)
deriving DecidableEq, Repr

/-- Effect oracle of one run: the successive `generate_nonce()` results, the
successive `save_json_file` outcomes (an exhausted list means further saves
succeed), the git `add`/`push` outcomes (`commit` runs with `check=False` and
never fails the run), the `datetime.utcnow()` reading used for
`generated_at`, and the `datetime.now()` reading taken after the publish
step, which becomes the persisted watermark. -/
structure Oracle where
  nonces : List (Option String)
  saves : List Bool
  gitAddOk : Bool
  gitPushOk : Bool
  nowIso : String
  endIso : String
deriving Repr

/-- Remaining oracle state threaded through a run. -/
structure St where
  nonces : List (Option String)
  saves : List Bool
deriving Repr

/-- Pop the next `generate_nonce()` result (an exhausted oracle fails). -/
def takeNonce (st : St) : Option String × St :=
  match st.nonces with
  | [] => (none, st)
  | o :: r => (o, { st with nonces := r })

/-- Pop the next `save_json_file` outcome (an exhausted oracle succeeds). -/
def takeSave (st : St) : Bool × St :=
  match st.saves with
  | [] => (true, st)
  | b :: r => (b, { st with saves := r })

/-- A `save_json_file` call: on success the write is recorded, on failure
nothing is written. -/
def trySaveW (st : St) (path : String) (v : FVal) : Bool × St × List (String × FVal) :=
  let (ok, st') := takeSave st
  (ok, st', if ok then [(path, v)] else [])

/-- A `get_nonce_filename` call inside the run: `generate_nonce()` is invoked
(consuming the oracle) only when the name misses the map. -/
def resolveName (base : String) (nm : NMap) (st : St) : String × NMap × St :=
  match nm.lookup base with
  | some fn => (fn, nm, st)
  | none =>
    let (o, st') := takeNonce st
    let (fn, nm') := get_nonce_filename base nm o
    (fn, nm', st')

/-- Append `it` to the group of `key`, creating the group at the end on a
miss (Python dict-of-list insertion order). -/
def addGroup (g : List (String × List Item)) (key : String) (it : Item) :
    List (String × List Item) :=
  match g with
  | [] => [(key, [it])]
  | (k, items) :: r =>
    if k = key then (k, items ++ [it]) :: r else (k, items) :: addGroup r key it

/-- The per-conversation chunk loop: resolve a nonce filename for every chunk,
save it, and collect the relative URL of each successfully saved chunk. -/
def writeChunks (id : Nat) (createdIso source : String) (tags : List String) :
    List (Nat × List Char) → NMap → St → List String × List (String × FVal) × NMap × St
  | [], nm, st => ([], [], nm, st)
  | (ix, ctext) :: rest, nm, st =>
    let base := toString id ++ "-" ++ toString ix
    let (fn, nm1, st1) := resolveName base nm st
    let (ok, st2, w) := trySaveW st1 (CHUNK_DIR ++ "/" ++ fn)
      (FVal.chunkF id ix createdIso source (sortStrings tags) ctext)
    let (urls, w2, nm2, st3) := writeChunks id createdIso source tags rest nm1 st2
    ((if ok then ["chunks/" ++ fn] else []) ++ urls, w ++ w2, nm2, st3)

/-- Tag and month groups accumulated over the conversation loop. -/
structure Groups where
  byTag : List (String × List Item)
  byMonth : List (String × List Item)
deriving Repr

/-- The conversation loop of `export_memory_to_git`: filter, redact, chunk,
write chunks, build the item, and group it by each found tag and by month. -/
def processConvs : List DbRow → Groups → Nat → NMap → St →
    Groups × Nat × List (String × FVal) × NMap × St
  | [], g, cnt, nm, st => (g, cnt, [], nm, st)
  | r :: rest, g, cnt, nm, st =>
    let (se, tags) := should_export_conversation r.content r.summary
    if !se then processConvs rest g cnt nm st
    else
      let rc := redact_content r.content
      let chunks := chunk_content rc CHUNK_SIZE
      let (urls, w1, nm1, st1) := writeChunks r.id r.createdIso r.source tags chunks nm st
      let item : Item :=
        { id := r.id, createdAt := r.createdIso, source := r.source,
          title := titleOf r.source r.summary, tags := sortStrings tags,
          summary := r.summary.getD [], chunkUrls := urls, preview240 := previewOf rc }
      let g1 : Groups :=
        { byTag := tags.foldl (fun acc tag => addGroup acc tag item) g.byTag,
          byMonth := addGroup g.byMonth r.createdYM item }
      let (g2, cnt2, w2, nm2, st2) := processConvs rest g1 (cnt + 1) nm1 st1
      (g2, cnt2, w1 ++ w2, nm2, st2)

/-- The shard write loop, shared by the tag and month phases: one versioned
shard file per group key, under a resolved nonce filename. -/
def writeShards (dir genAt : String) :
    List (String × List Item) → NMap → St → List (String × FVal) × NMap × St
  | [], nm, st => ([], nm, st)
  | (key, items) :: rest, nm, st =>
    let (fn, nm1, st1) := resolveName key nm st
    let (_, st2, w) := trySaveW st1 (dir ++ "/" ++ fn) (FVal.shardF "1" genAt items)
    let (w2, nm2, st3) := writeShards dir genAt rest nm1 st2
    (w ++ w2, nm2, st3)

/-- The search map tokens: one entry per tag group, using `nonce_map.get(tag,
tag + ".json")`.  Month groups contribute nothing. -/
def searchTokens (byTag : List (String × List Item)) (nm : NMap) :
    List (String × List String) :=
  byTag.map (fun p => (p.1, ["catalog/shards/by_tag/" ++ ((nm.lookup p.1).getD (p.1 ++ ".json"))]))

/-- Model of `export_memory_to_git`.  Inputs: the persisted nonce-map file (if
any), the loaded watermark (if any), the query result, and the effect oracle.
Output: the success flag and the chronological list of file writes of the
run. -/
def export_memory_to_git (nmFile : Option NMap) (lastExport : Option String)
    (convs : List DbRow) (orc : Oracle) : Bool × List (String × FVal) :=
  let nm0 := load_nonce_map nmFile
  let isInc := lastExport.isSome
  if convs.isEmpty then
    if isInc then (true, []) else (false, [])
  else
    let st0 : St := { nonces := orc.nonces, saves := orc.saves }
    let (g, newCnt, w1, nm1, st1) := processConvs convs ⟨[], []⟩ 0 nm0 st0
    let (w2, nm2, st2) := writeShards SHARD_TAG_DIR orc.nowIso g.byTag nm1 st1
    let (w3, nm3, st3) := writeShards SHARD_DATE_DIR orc.nowIso g.byMonth nm2 st2
    let tokens := searchTokens g.byTag nm3
    let (smFn, nm4, st4) := resolveName "search_map" nm3 st3
    let (_, st5, w4) := trySaveW st4 (CATALOG_DIR ++ "/" ++ smFn)
      (FVal.searchF "1" tokens "nonce_based_urls"
        "URLs use random nonces for security through obscurity")
    let (_, st6, w5) := trySaveW st5 NONCE_MAP_FILE (FVal.nonceF nm4)
    let total := (g.byTag.map (fun p => p.2.length)).sum
    let (buildFn, _, st7) := resolveName "latest_build" nm4 st6
    let (_, st8, w6) := trySaveW st7 (META_DIR ++ "/" ++ buildFn)
      (FVal.buildF orc.nowIso total newCnt isInc ("catalog/" ++ smFn))
    let writes := w1 ++ w2 ++ w3 ++ w4 ++ w5 ++ w6
    if !orc.gitAddOk then (false, writes)
    else if !orc.gitPushOk then (false, writes)
    else
      let (ok4, _, w7) := trySaveW st8 LAST_EXPORT_FILE (FVal.lastF orc.endIso true)
      if ok4 then (true, writes ++ w7) else (false, writes ++ w7)

end GitMirror

namespace GitMirror

/-! ### Definitions rendered from claim wordings, and concrete fixtures -/

/-- Rendering of the eligibility sentence of claim C3 as written: a public tag
must occur, case-insensitively, in the plain concatenation of content and
summary (no separator); absent content is ineligible. -/
def claimEligibleC3 (content : List Char) (summary : Option (List Char)) : Bool :=
  !content.isEmpty &&
    PUBLIC_TAGS.any (fun tag => isSubstr tag.toList ((content ++ summary.getD []).map Char.toLower))

/-- Sample eligible row used by concrete runs (content carries the tag
`memory`, no digits and no at-sign, so redaction leaves it unchanged). -/
def rowA : DbRow :=
  { id := 7, createdIso := "2025-08-10T00:00:00", createdYM := "2025-08",
    source := "chat", content := "memory x".toList, summary := none }

/-- Oracle of a fully successful run with five fresh nonces. -/
def orcA : Oracle :=
  { nonces := [some "n1", some "n2", some "n3", some "n4", some "n5"],
    saves := [], gitAddOk := true, gitPushOk := true, nowIso := "T", endIso := "E" }

/-- The tag-key lists of all search-map writes in a write list. -/
def searchKeysIn (ws : List (String × FVal)) : List String :=
  ws.foldr (fun p acc =>
    match p.2 with
    | FVal.searchF _ toks _ _ => toks.map Prod.fst ++ acc
    | _ => acc) []

/-- A fully successful run on `rowA`, first run (no watermark). -/
def runA : Bool × List (String × FVal) := export_memory_to_git none none [rowA] orcA

/-- The run of `rowA` with a failing `git push`, in incremental mode. -/
def runPushFail : Bool × List (String × FVal) :=
  export_memory_to_git none (some "2025-08-01T00:00:00") [rowA]
    { orcA with gitPushOk := false }

/-- Long eligible content for the preview counterexample: redaction leaves it
unchanged (no digits, no at-sign) and it exceeds the 240-character bound. -/
def rowLong : DbRow :=
  { id := 9, createdIso := "2025-08-11T00:00:00", createdYM := "2025-08",
    source := "chat", content := ("memory " ++ String.mk (List.replicate 241 'a')).toList,
    summary := none }

/-- The conversation-loop output on `rowLong` alone. -/
def runLong : Groups × Nat × List (String × FVal) × NMap × St :=
  processConvs [rowLong] ⟨[], []⟩ 0 [] { nonces := [some "n0"], saves := [] }

/-- The single export item built for `rowLong`. -/
def itemLong : Item :=
  ((runLong.1.byTag.headD ("", [])).2.headD
    { id := 0, createdAt := "", source := "", title := [], tags := [], summary := [],
      chunkUrls := [], preview240 := [] })

/-- No e-mail match starts at any position of `s` (the e-mail pattern reads
only the suffix, no boundary context). -/
def noEmailAll : List Char → Prop
  | [] => True
  | c :: r => emailHere (c :: r) = none ∧ noEmailAll r

/-- No phone match starts at any position of `s`, with `prev` the character
before `s` (for the leading word boundary). -/
def noPhoneFrom : Option Char → List Char → Prop
  | _, [] => True
  | prev, c :: r => phoneAt prev (c :: r) = none ∧ noPhoneFrom (some c) r

/-- No IP match starts at any position of `s`, with `prev` the character
before `s`. -/
def noIPFrom : Option Char → List Char → Prop
  | _, [] => True
  | prev, c :: r => ipAt prev (c :: r) = none ∧ noIPFrom (some c) r

/-! ### Shared helper lemmas -/

/-- Lookup distributes over append, preferring the left list. -/
theorem lookup_append_nmap (l₁ l₂ : NMap) (k : String) :
    (l₁ ++ l₂).lookup k = ((l₁.lookup k).orElse fun _ => l₂.lookup k) := by
  induction l₁ with
  | nil => simp [List.lookup]
  | cons h t ih =>
    obtain ⟨a, b⟩ := h
    by_cases hk : k == a <;> simp [List.lookup, hk, ih]

/-! ### C2: chunking -/

/-- Invariant of the chunk loop: indices are consecutive from `k`, the texts
concatenate back to the input, and every text has length at most `S`. -/
theorem chunkGo_spec (f : Nat) : ∀ (t : List Char) (S k : Nat), t.length ≤ f → 0 < S →
    ((chunkGo f t S k).map Prod.fst = List.range' k (chunkGo f t S k).length) ∧
    ((chunkGo f t S k).map Prod.snd).flatten = t ∧
    (∀ p ∈ chunkGo f t S k, p.2.length ≤ S) := by
  induction f with
  | zero =>
    intro t S k hf _
    have ht : t = [] := List.eq_nil_of_length_eq_zero (Nat.le_zero.mp hf)
    subst ht
    simp [chunkGo]
  | succ f ih =>
    intro t S k hf hS
    cases t with
    | nil => simp [chunkGo]
    | cons c r =>
      have hlen : ((c :: r).drop S).length ≤ f := by
        simp only [List.length_drop, List.length_cons]
        simp only [List.length_cons] at hf
        omega
      obtain ⟨h1, h2, h3⟩ := ih ((c :: r).drop S) S (k + 1) hlen hS
      refine ⟨?_, ?_, ?_⟩
      · simp only [chunkGo, List.map_cons, List.length_cons, List.range'_succ, h1]
      · simp only [chunkGo, List.map_cons, List.flatten_cons, h2]
        exact List.take_append_drop S (c :: r)
      · intro p hp
        simp only [chunkGo, List.mem_cons] at hp
        rcases hp with hp | hp
        · subst hp
          simp
        · exact h3 p hp

/-- C2: for every text `T` and size `S > 0`, `chunk_content T S` returns
chunks with zero-based contiguous indices, in index order, whose texts
concatenated in that order reproduce `T` exactly; every chunk text has length
at most `S`, and the empty text yields the empty list. -/
theorem chunk_content_spec (t : List Char) (S : Nat) (hS : 0 < S) :
    ((chunk_content t S).map Prod.fst = List.range (chunk_content t S).length) ∧
    ((chunk_content t S).map Prod.snd).flatten = t ∧
    (∀ p ∈ chunk_content t S, p.2.length ≤ S) ∧
    chunk_content [] S = [] := by
  have hS0 : S ≠ 0 := Nat.pos_iff_ne_zero.mp hS
  by_cases ht : t.isEmpty
  · have ht' : t = [] := by cases t <;> simp_all
    subst ht'
    simp [chunk_content]
  · obtain ⟨h1, h2, h3⟩ := chunkGo_spec t.length t S 0 (le_refl _) hS
    refine ⟨?_, ?_, ?_, ?_⟩
    · simpa [chunk_content, ht, hS0, List.range_eq_range'] using h1
    · simpa [chunk_content, ht, hS0] using h2
    · simpa [chunk_content, ht, hS0] using h3
    · simp [chunk_content]

/-- Witness for C2 at a concrete input. -/
theorem chunk_content_spec_witness :
    0 < 2 ∧
    (((chunk_content "abcde".toList 2).map Prod.fst
        = List.range (chunk_content "abcde".toList 2).length) ∧
      ((chunk_content "abcde".toList 2).map Prod.snd).flatten = "abcde".toList ∧
      (∀ p ∈ chunk_content "abcde".toList 2, p.2.length ≤ 2) ∧
      chunk_content [] 2 = []) :=
  ⟨by decide, chunk_content_spec "abcde".toList 2 (by decide)⟩

end GitMirror

namespace GitMirror

/-! ### C10: frame property of `get_nonce_filename` -/

/-- C10: `get_nonce_filename` never modifies an existing entry: a present name
returns its stored filename with the map unchanged; a missing name with a
failed nonce generation returns the plain fallback with the map unchanged; a
missing name with a fresh nonce adds exactly one entry, binding the name to
the returned filename, and leaves every other key's lookup unchanged. -/
theorem get_nonce_filename_frame (base : String) (m : NMap) (o : Option String) :
    (∀ fn, m.lookup base = some fn → get_nonce_filename base m o = (fn, m)) ∧
    (m.lookup base = none → o = none → get_nonce_filename base m o = (base ++ ".json", m)) ∧
    (∀ n, m.lookup base = none → o = some n →
      get_nonce_filename base m o = (mkNonceName base n, m ++ [(base, mkNonceName base n)]) ∧
      (get_nonce_filename base m o).2.lookup base = some (get_nonce_filename base m o).1 ∧
      (∀ k, k ≠ base → (get_nonce_filename base m o).2.lookup k = m.lookup k)) := by
  refine ⟨?_, ?_, ?_⟩
  · intro fn h
    simp [get_nonce_filename, h]
  · intro h ho
    subst ho
    simp [get_nonce_filename, h]
  · intro n h ho
    subst ho
    refine ⟨by simp [get_nonce_filename, h], ?_, ?_⟩
    · simp [get_nonce_filename, h, lookup_append_nmap, List.lookup]
    · intro k hk
      have hkb : (k == base) = false := beq_eq_false_iff_ne.mpr hk
      simp [get_nonce_filename, h, lookup_append_nmap, List.lookup, hkb]

/-- Witness for C10 at concrete inputs, one per case. -/
theorem get_nonce_filename_frame_witness :
    ([("a", "a_x.json")].lookup "a" = some "a_x.json" ∧
      get_nonce_filename "a" [("a", "a_x.json")] (some "zz") = ("a_x.json", [("a", "a_x.json")])) ∧
    (([] : NMap).lookup "b" = none ∧ get_nonce_filename "b" [] none = ("b.json", [])) ∧
    (([] : NMap).lookup "b" = none ∧
      get_nonce_filename "b" [] (some "n") = ("b_n.json", [("b", "b_n.json")])) :=
  ⟨⟨by decide, (get_nonce_filename_frame "a" [("a", "a_x.json")] (some "zz")).1 _ (by decide)⟩,
   ⟨by decide, (get_nonce_filename_frame "b" [] none).2.1 (by decide) rfl⟩,
   ⟨by decide, by
      have h := ((get_nonce_filename_frame "b" [] (some "n")).2.2 "n" (by decide) rfl).1
      rw [h]
      decide⟩⟩

/-! ### C7: addressing stability (corrected) -/

/-- Counterexample to C7 as stated: when the first resolution of a name fails
to generate a nonce, it returns the fallback without recording it, so a second
resolution in the same run (now succeeding) yields a different filename. -/
theorem get_nonce_filename_unstable_cex :
    get_nonce_filename "note" [] none = ("note.json", []) ∧
    (get_nonce_filename "note" [] (some "abc")).1 = "note_abc.json" ∧
    ("note_abc.json" : String) ≠ "note.json" := by
  refine ⟨by decide, by decide, by decide⟩

/-- C7 (amended): once a name is in the map — in particular after any
resolution whose nonce generation succeeded — every later resolution, in the
same run or in a later run after the map is persisted and reloaded, returns
the same filename; and a failed nonce generation returns the deterministic
plain fallback `base ++ ".json"` without aborting (and without recording). -/
theorem get_nonce_filename_stable (base n : String) (m : NMap) (o o' : Option String)
    (hmiss : m.lookup base = none) :
    ((get_nonce_filename base (get_nonce_filename base m (some n)).2 o).1
        = (get_nonce_filename base m (some n)).1) ∧
    ((get_nonce_filename base
        (load_nonce_map (some (get_nonce_filename base m (some n)).2)) o').1
        = (get_nonce_filename base m (some n)).1) ∧
    (∀ fn, m.lookup base = some fn → ∀ q, (get_nonce_filename base m q).1 = fn) ∧
    get_nonce_filename base m none = (base ++ ".json", m) := by
  have hfst : (get_nonce_filename base m (some n)).1 = mkNonceName base n := by
    simp [get_nonce_filename, hmiss]
  have hsnd : (get_nonce_filename base m (some n)).2 = m ++ [(base, mkNonceName base n)] := by
    simp [get_nonce_filename, hmiss]
  have hlook : (m ++ [(base, mkNonceName base n)]).lookup base = some (mkNonceName base n) := by
    simp [lookup_append_nmap, hmiss, List.lookup]
  refine ⟨?_, ?_, ?_, ?_⟩
  · rw [hsnd, hfst]
    simp [get_nonce_filename, hlook]
  · rw [hsnd, hfst]
    simp [load_nonce_map, get_nonce_filename, hlook]
  · intro fn h q
    simp [get_nonce_filename, h]
  · simp [get_nonce_filename, hmiss]

/-- Witness for the amended C7 at concrete inputs. -/
theorem get_nonce_filename_stable_witness :
    ([] : NMap).lookup "note" = none ∧
    ((get_nonce_filename "note" (get_nonce_filename "note" [] (some "abc")).2 none).1
        = (get_nonce_filename "note" [] (some "abc")).1 ∧
      (get_nonce_filename "note"
          (load_nonce_map (some (get_nonce_filename "note" [] (some "abc")).2)) (some "zz")).1
        = (get_nonce_filename "note" [] (some "abc")).1 ∧
      (∀ fn, ([] : NMap).lookup "note" = some fn →
        ∀ q, (get_nonce_filename "note" [] q).1 = fn) ∧
      get_nonce_filename "note" [] none = ("note.json", [])) :=
  ⟨by decide, get_nonce_filename_stable "note" "abc" [] none (some "zz") (by decide)⟩

end GitMirror

namespace GitMirror

/-! ### C3: eligibility (corrected) -/

/-- `isSubstr` agrees with list-infix. -/
theorem isSubstr_iff_infix (pat s : List Char) : isSubstr pat s = true ↔ pat <:+: s := by
  induction s with
  | nil =>
    simp [isSubstr, List.isPrefixOf_iff_prefix]
  | cons c r ih =>
    simp [isSubstr, List.isPrefixOf_iff_prefix, ih, List.infix_cons_iff]

end GitMirror

namespace GitMirror

/-- Counterexample to C3 as stated: with content `"memo"` and summary `"ry"`,
the tag `memory` is a substring of the plain concatenation of content and
summary, yet the code deems the conversation ineligible (the code inserts a
space between content and summary before searching). -/
theorem should_export_concat_cex :
    claimEligibleC3 "memo".toList (some "ry".toList) = true ∧
    should_export_conversation "memo".toList (some "ry".toList) = (false, []) := by
  refine ⟨by decide, by decide⟩

/-- C3 (amended): eligibility holds iff some configured public tag occurs,
case-insensitively, in the concatenation of content, one separating space, and
the summary (absent summary treated as empty); the returned tag list collects
exactly the matching public tags (the driver serializes them sorted); and
absent or empty content yields `(false, [])` without raising. -/
theorem should_export_spec (content : List Char) (summary : Option (List Char)) :
    ((should_export_conversation content summary).1 = true ↔
      content ≠ [] ∧ ∃ tag ∈ PUBLIC_TAGS,
        tag.toList <:+: (content ++ ' ' :: summary.getD []).map Char.toLower) ∧
    (∀ tag, tag ∈ (should_export_conversation content summary).2 ↔
      content ≠ [] ∧ tag ∈ PUBLIC_TAGS ∧
        tag.toList <:+: (content ++ ' ' :: summary.getD []).map Char.toLower) ∧
    (content = [] → should_export_conversation content summary = (false, [])) := by
  by_cases hc : content.isEmpty
  · have hc' : content = [] := by cases content <;> simp_all
    subst hc'
    simp [should_export_conversation]
  · have hc' : content ≠ [] := by cases content <;> simp_all
    have key : ∀ tag : String, tag ∈ PUBLIC_TAGS.filter
        (fun tag => isSubstr tag.toList ((content ++ ' ' :: summary.getD []).map Char.toLower)) ↔
        tag ∈ PUBLIC_TAGS ∧
          tag.toList <:+: (content ++ ' ' :: summary.getD []).map Char.toLower := by
      intro tag
      simp [List.mem_filter, isSubstr_iff_infix]
    refine ⟨?_, ?_, ?_⟩
    · simp only [should_export_conversation, hc, Bool.false_eq_true, if_false,
        Bool.not_eq_eq_eq_not, Bool.not_true, List.isEmpty_eq_false, ne_eq]
      constructor
      · intro h
        obtain ⟨tag, htag⟩ := List.exists_mem_of_ne_nil _ h
        exact ⟨hc', tag, ((key tag).mp htag).1, ((key tag).mp htag).2⟩
      · rintro ⟨-, tag, ht, hs⟩
        exact List.ne_nil_of_mem ((key tag).mpr ⟨ht, hs⟩)
    · intro tag
      simp only [should_export_conversation, hc, Bool.false_eq_true, if_false]
      rw [key tag]
      exact ⟨fun ⟨a, b⟩ => ⟨hc', a, b⟩, fun ⟨_, a, b⟩ => ⟨a, b⟩⟩
    · intro h
      exact absurd h hc'

/-- Witness for the amended C3 at a concrete input (the empty-content case). -/
theorem should_export_spec_witness :
    should_export_conversation [] (some "memory".toList) = (false, []) :=
  (should_export_spec [] (some "memory".toList)).2.2 rfl

end GitMirror

namespace GitMirror

/-! ### C6: zero-row query -/

/-- C6: a run whose record query returns zero rows terminates successfully
with no writes when a watermark was present (incremental mode), and
terminates with failure when no watermark was present (full mode). -/
theorem export_empty_query (nmFile : Option NMap) (orc : Oracle) :
    (∀ w, export_memory_to_git nmFile (some w) [] orc = (true, [])) ∧
    export_memory_to_git nmFile none [] orc = (false, []) := by
  constructor
  · intro w
    simp [export_memory_to_git]
  · simp [export_memory_to_git]

/-! ### C5: IP allow-list (corrected) -/

/-- Counterexample to C5 as stated: in
`104.191.236.122.1.2.3.4` the allow-listed address occurs (at word
boundaries), yet redaction does not let it pass through: an overlapping match
starting inside it is replaced, destroying the address. -/
theorem redact_allowlist_cex :
    allowLit <:+: "104.191.236.122.1.2.3.4".toList ∧
    redact_content "104.191.236.122.1.2.3.4".toList = "104.<redacted.ip>.2.3.4".toList ∧
    ¬ allowLit <:+: redact_content "104.191.236.122.1.2.3.4".toList := by
  refine ⟨by decide, by decide, by decide⟩

/-- C5 (amended): the allow-list is positional: no replacement ever starts at
a position where the text reads `104.191.236.122` (the negative lookahead),
and an isolated occurrence of the address passes through unredacted, but an
occurrence overlapped by a dotted-quad match starting inside it can still be
destroyed. -/
theorem ip_allowlist_positional (prev : Option Char) (s : List Char) (n : Nat)
    (h : ipAt prev s = some n) :
    allowLit.isPrefixOf s = false ∧ redact_content allowLit = allowLit := by
  refine ⟨?_, by decide⟩
  cases hh : allowLit.isPrefixOf s with
  | false => rfl
  | true =>
    rw [ipAt] at h
    simp [hh] at h

/-- Witness for the amended C5 at a concrete input. -/
theorem ip_allowlist_positional_witness :
    ipAt none "1.2.3.4".toList = some 7 ∧
    (allowLit.isPrefixOf "1.2.3.4".toList = false ∧ redact_content allowLit = allowLit) :=
  ⟨by decide, ip_allowlist_positional none "1.2.3.4".toList 7 (by decide)⟩

/-! ### C9: preview (corrected) -/

/-- Counterexample to C9 as stated: for an exported record whose redacted
content exceeds 240 characters, the stored preview is the 240-character prefix
with an appended ellipsis, which is not a prefix of the redacted content. -/
theorem preview_not_prefix_cex :
    runLong.1.byTag = [("memory", [itemLong])] ∧
    240 < (redact_content rowLong.content).length ∧
    itemLong.preview240 = (redact_content rowLong.content).take 240 ++ "...".toList ∧
    ¬ itemLong.preview240 <+: redact_content rowLong.content := by
  refine ⟨by decide, by decide, by decide, by decide⟩

/-- C9 (amended): the preview equals the redacted content when that content is
within the 240-character bound; otherwise it is the 240-character prefix of
the redacted content followed by a three-dot ellipsis (total length 243), so
the preview with the ellipsis removed is a prefix. -/
theorem preview_spec (rc : List Char) :
    (rc.length ≤ 240 → previewOf rc = rc) ∧
    (240 < rc.length →
      previewOf rc = rc.take 240 ++ "...".toList ∧
      (previewOf rc).length = 243 ∧
      rc.take 240 <+: rc) := by
  constructor
  · intro h
    simp [previewOf, Nat.not_lt.mpr h, List.take_of_length_le h]
  · intro h
    refine ⟨by simp [previewOf, h], ?_, List.take_prefix 240 rc⟩
    simp [previewOf, h, List.length_take]
    omega

/-- Witness for the amended C9 at a concrete input. -/
theorem preview_spec_witness :
    "ab".toList.length ≤ 240 ∧ previewOf "ab".toList = "ab".toList :=
  ⟨by decide, (preview_spec "ab".toList).1 (by decide)⟩

end GitMirror

namespace GitMirror

/-! ### C8: discovery index (corrected) -/

/-- Counterexample to C8 as stated: a fully successful run that produces a
month shard (`2025-08`) whose key is absent from the search map; only the tag
key appears. -/
theorem searchmap_month_missing_cex :
    runA.1 = true ∧
    (SHARD_DATE_DIR ++ "/2025-08_n3.json") ∈ runA.2.map Prod.fst ∧
    searchKeysIn runA.2 = ["memory"] ∧
    "2025-08" ∉ searchKeysIn runA.2 := by
  refine ⟨by decide, by decide, by decide, by decide⟩

/-- Tags returned by the eligibility filter are configured public tags. -/
theorem should_export_tags_subset (c : List Char) (s : Option (List Char)) (t : String)
    (h : t ∈ (should_export_conversation c s).2) : t ∈ PUBLIC_TAGS := by
  by_cases hc : c.isEmpty
  · simp [should_export_conversation, hc] at h
  · simp only [should_export_conversation, hc, Bool.false_eq_true, if_false] at h
    exact (List.mem_filter.mp h).1

/-- Keys of `addGroup`: the old keys, with the new key appended on a miss. -/
theorem addGroup_keys_eq (key : String) (it : Item) :
    ∀ g : List (String × List Item),
      (addGroup g key it).map Prod.fst =
        if key ∈ g.map Prod.fst then g.map Prod.fst else g.map Prod.fst ++ [key] := by
  intro g
  induction g with
  | nil => simp [addGroup]
  | cons h t ih =>
    obtain ⟨a, items⟩ := h
    by_cases hak : a = key
    · subst hak
      simp [addGroup]
    · have hka : ¬ key = a := fun he => hak he.symm
      by_cases hmem : key ∈ t.map Prod.fst
      · simp [addGroup, hak, hka, hmem, ih]
      · simp [addGroup, hak, hka, hmem, ih]

/-- Keys of `addGroup` are the old keys plus possibly the new key. -/
theorem addGroup_keys (g : List (String × List Item)) (key : String) (it : Item) :
    ∀ k, k ∈ (addGroup g key it).map Prod.fst → k = key ∨ k ∈ g.map Prod.fst := by
  intro k hk
  rw [addGroup_keys_eq] at hk
  by_cases hmem : key ∈ g.map Prod.fst
  · rw [if_pos hmem] at hk
    exact Or.inr hk
  · rw [if_neg hmem] at hk
    rcases List.mem_append.mp hk with hk' | hk'
    · exact Or.inr hk'
    · exact Or.inl (by simpa using hk')

/-- Keys after folding `addGroup` over a tag list come from the tags or the
initial groups. -/
theorem foldl_addGroup_keys (it : Item) :
    ∀ (tags : List String) (acc : List (String × List Item)) k,
      k ∈ ((tags.foldl (fun a t => addGroup a t it) acc).map Prod.fst) →
      k ∈ tags ∨ k ∈ acc.map Prod.fst := by
  intro tags
  induction tags with
  | nil => simp
  | cons t ts ih =>
    intro acc k hk
    simp only [List.foldl_cons] at hk
    rcases ih (addGroup acc t it) k hk with hk' | hk'
    · exact Or.inl (List.mem_cons_of_mem _ hk')
    · rcases addGroup_keys acc t it k hk' with hk'' | hk''
      · exact Or.inl (hk'' ▸ List.mem_cons_self t ts)
      · exact Or.inr hk''

/-- Tag-group keys produced by the conversation loop are either inherited from
the initial groups or configured public tags. -/
theorem processConvs_byTag_keys :
    ∀ (convs : List DbRow) (g : Groups) (cnt : Nat) (nm : NMap) (st : St) k,
      k ∈ ((processConvs convs g cnt nm st).1.byTag.map Prod.fst) →
      k ∈ g.byTag.map Prod.fst ∨ k ∈ PUBLIC_TAGS := by
  intro convs
  induction convs with
  | nil => intro g cnt nm st k hk; exact Or.inl hk
  | cons r rest ih =>
    intro g cnt nm st k hk
    simp only [processConvs] at hk
    by_cases hse : (should_export_conversation r.content r.summary).1
    · rw [if_neg (by simp [hse])] at hk
      rcases ih _ _ _ _ k hk with hk' | hk'
      · simp only [List.foldl] at hk'
        rcases foldl_addGroup_keys _ _ _ k hk' with hk'' | hk''
        · exact Or.inr (should_export_tags_subset _ _ _ hk'')
        · exact Or.inl hk''
      · exact Or.inr hk'
    · rw [if_pos (by simp [hse])] at hk
      exact ih _ _ _ _ k hk

/-- C8 (amended): the search map built each run maps exactly the run's tag
shard keys, each to the resolved address of that tag's shard; month shard
keys are not in the map — starting from empty groups, every key of the tag
grouping (hence of the search map) is a configured public tag, and month keys
are `YYYY-MM` strings, not public tags. -/
theorem searchmap_spec (byTag : List (String × List Item)) (nm : NMap)
    (convs : List DbRow) (cnt : Nat) (st : St) (k : String)
    (hk : k ∈ ((processConvs convs ⟨[], []⟩ cnt nm st).1.byTag.map Prod.fst)) :
    ((searchTokens byTag nm).map Prod.fst = byTag.map Prod.fst ∧
      ∀ p ∈ searchTokens byTag nm,
        p.2 = ["catalog/shards/by_tag/" ++ ((nm.lookup p.1).getD (p.1 ++ ".json"))]) ∧
    k ∈ PUBLIC_TAGS := by
  refine ⟨⟨?_, ?_⟩, ?_⟩
  · simp [searchTokens]
  · intro p hp
    simp only [searchTokens, List.mem_map] at hp
    obtain ⟨q, _, hq⟩ := hp
    subst hq
    rfl
  · rcases processConvs_byTag_keys convs ⟨[], []⟩ cnt nm st k hk with h | h
    · simp at h
    · exact h

/-- Witness for the amended C8 at a concrete input. -/
theorem searchmap_spec_witness :
    ("memory" ∈ ((processConvs [rowA] ⟨[], []⟩ 0 []
        { nonces := [some "n1"], saves := [] }).1.byTag.map Prod.fst)) ∧
    ((((searchTokens [("memory", [])] [("memory", "memory_n2.json")]).map Prod.fst
        = [("memory", ([] : List Item))].map Prod.fst) ∧
      ∀ p ∈ searchTokens [("memory", [])] [("memory", "memory_n2.json")],
        p.2 = ["catalog/shards/by_tag/" ++
          (([("memory", "memory_n2.json")] : NMap).lookup p.1).getD (p.1 ++ ".json")]) ∧
      "memory" ∈ PUBLIC_TAGS) :=
  ⟨by decide,
   searchmap_spec [("memory", [])] [("memory", "memory_n2.json")] [rowA] 0
     { nonces := [some "n1"], saves := [] } "memory" (by decide)⟩

end GitMirror

namespace GitMirror

/-! ### C1: persistence ordering (corrected) — helpers -/

/-- A string with prefix `p` differs from `t` when their first `k` characters
already differ. -/
theorem prefixed_ne (p fn t : String) (k : Nat) (hk : k ≤ p.data.length)
    (h : p.data.take k ≠ t.data.take k) : p ++ fn ≠ t := by
  intro he
  apply h
  have hd := congrArg String.data he
  rw [String.data_append] at hd
  rw [← hd, List.take_append_of_le_length hk]

/-- Same, for a three-part append. -/
theorem prefixed3_ne (a n b t : String) (k : Nat) (hk : k ≤ a.data.length)
    (h : a.data.take k ≠ t.data.take k) : a ++ n ++ b ≠ t := by
  intro he
  apply h
  have hd := congrArg String.data he
  rw [String.data_append, String.data_append, List.append_assoc] at hd
  rw [← hd, List.take_append_of_le_length hk]

/-- String append is left-cancellative. -/
theorem string_append_right_inj (p a b : String) (h : p ++ a = p ++ b) : a = b := by
  have hd := congrArg String.data h
  rw [String.data_append, String.data_append] at hd
  have hab := List.append_cancel_left hd
  cases a
  cases b
  simp_all

/-- The `latest_build` nonce filename is never the watermark filename. -/
theorem mkNonce_latest_ne (n : String) : mkNonceName "latest_build" n ≠ "last_export.json" := by
  have he : mkNonceName "latest_build" n = "latest_build" ++ "_" ++ n ++ ".json" := rfl
  rw [he]
  intro hc
  have hd := congrArg String.data hc
  rw [String.data_append, String.data_append, String.data_append,
    List.append_assoc, List.append_assoc] at hd
  have : ("latest_build".data ++ ("_".data ++ (n.data ++ ".json".data))).take 3
      = ("last_export.json" : String).data.take 3 := by rw [hd]
  rw [List.take_append_of_le_length (by decide)] at this
  revert this
  decide

/-- `takeNonce` does not touch the save oracle. -/
theorem takeNonce_saves (st : St) : (takeNonce st).2.saves = st.saves := by
  cases h : st.nonces <;> simp [takeNonce, h]

/-- `resolveName` does not touch the save oracle. -/
theorem resolveName_saves (base : String) (nm : NMap) (st : St) :
    (resolveName base nm st).2.2.saves = st.saves := by
  cases h : nm.lookup base
  · rcases h2 : takeNonce st with ⟨o, st'⟩
    have hs : st'.saves = st.saves := by
      have := takeNonce_saves st
      rw [h2] at this
      exact this
    simp [resolveName, h, h2, hs]
  · simp [resolveName, h]

/-- With an exhausted save oracle, saves succeed and leave the state alone. -/
theorem trySaveW_nil (st : St) (h : st.saves = []) (p : String) (v : FVal) :
    trySaveW st p v = (true, st, [(p, v)]) := by
  simp [trySaveW, takeSave, h]

/-- `resolveName` preserves the safety of the `latest_build` entry. -/
theorem resolveName_latest (base : String) (nm : NMap) (st : St)
    (hP : ∀ v, nm.lookup "latest_build" = some v → v ≠ "last_export.json") :
    ∀ v, (resolveName base nm st).2.1.lookup "latest_build" = some v →
      v ≠ "last_export.json" := by
  intro v hv
  rcases hbase : nm.lookup base with _ | fn
  · rcases h2 : takeNonce st with ⟨o, st'⟩
    rcases o with _ | n
    · rw [resolveName, hbase, h2] at hv
      simp only [get_nonce_filename, hbase] at hv
      exact hP v hv
    · rw [resolveName, hbase, h2] at hv
      simp only [get_nonce_filename, hbase] at hv
      rw [lookup_append_nmap] at hv
      rcases h3 : nm.lookup "latest_build" with _ | u
      · rw [h3] at hv
        simp only [Option.orElse] at hv
        rcases h4 : ("latest_build" == base : Bool) with _ | _
        · simp [List.lookup, h4] at hv
        · simp only [List.lookup, h4, Option.some.injEq] at hv
          have hbe : "latest_build" = base := eq_of_beq h4
          subst hv
          rw [← hbe]
          exact mkNonce_latest_ne n
      · rw [h3] at hv
        simp only [Option.orElse, Option.some.injEq] at hv
        subst hv
        exact hP u h3
  · rw [resolveName, hbase] at hv
    exact hP v hv

end GitMirror

namespace GitMirror

/-- Invariant of the chunk-write loop: all write paths lie under the chunk
directory (so never the watermark file), the exhausted save oracle stays
exhausted, and the `latest_build` entry stays safe. -/
theorem writeChunks_inv (id : Nat) (ci src : String) (tags : List String) :
    ∀ (chunks : List (Nat × List Char)) (nm : NMap) (st : St), st.saves = [] →
      (∀ v, nm.lookup "latest_build" = some v → v ≠ "last_export.json") →
      (∀ p ∈ (writeChunks id ci src tags chunks nm st).2.1, p.1 ≠ LAST_EXPORT_FILE) ∧
      (writeChunks id ci src tags chunks nm st).2.2.2.saves = [] ∧
      (∀ v, (writeChunks id ci src tags chunks nm st).2.2.1.lookup "latest_build" = some v →
        v ≠ "last_export.json") := by
  intro chunks
  induction chunks with
  | nil =>
    intro nm st hs hP
    exact ⟨by simp [writeChunks], by simpa [writeChunks], by simpa [writeChunks]⟩
  | cons ch rest ih =>
    intro nm st hs hP
    obtain ⟨ix, ctext⟩ := ch
    rcases h1 : resolveName (toString id ++ "-" ++ toString ix) nm st with ⟨fn, nm1, st1⟩
    have hs1 : st1.saves = [] := by
      have := resolveName_saves (toString id ++ "-" ++ toString ix) nm st
      rw [h1] at this
      rw [this, hs]
    have hP1 : ∀ v, nm1.lookup "latest_build" = some v → v ≠ "last_export.json" := by
      have := resolveName_latest (toString id ++ "-" ++ toString ix) nm st hP
      rw [h1] at this
      exact this
    have h2 := trySaveW_nil st1 hs1 (CHUNK_DIR ++ "/" ++ fn)
      (FVal.chunkF id ix ci src (sortStrings tags) ctext)
    obtain ⟨hA, hB, hC⟩ := ih nm1 st1 hs1 hP1
    refine ⟨?_, ?_, ?_⟩
    · intro p hp
      simp only [writeChunks, h1, h2, List.mem_append, List.mem_singleton] at hp
      rcases hp with hp | hp
      · subst hp
        exact prefixed_ne (CHUNK_DIR ++ "/") fn LAST_EXPORT_FILE 17 (by decide) (by decide)
      · exact hA p hp
    · simp only [writeChunks, h1, h2]
      exact hB
    · simp only [writeChunks, h1, h2]
      exact hC

/-- Invariant of the shard-write loop, for a directory whose paths never
collide with the watermark file. -/
theorem writeShards_inv (dir genAt : String)
    (hdir : ∀ fn, dir ++ "/" ++ fn ≠ LAST_EXPORT_FILE) :
    ∀ (groups : List (String × List Item)) (nm : NMap) (st : St), st.saves = [] →
      (∀ v, nm.lookup "latest_build" = some v → v ≠ "last_export.json") →
      (∀ p ∈ (writeShards dir genAt groups nm st).1, p.1 ≠ LAST_EXPORT_FILE) ∧
      (writeShards dir genAt groups nm st).2.2.saves = [] ∧
      (∀ v, (writeShards dir genAt groups nm st).2.1.lookup "latest_build" = some v →
        v ≠ "last_export.json") := by
  intro groups
  induction groups with
  | nil =>
    intro nm st hs hP
    exact ⟨by simp [writeShards], by simpa [writeShards], by simpa [writeShards]⟩
  | cons gr rest ih =>
    intro nm st hs hP
    obtain ⟨key, items⟩ := gr
    rcases h1 : resolveName key nm st with ⟨fn, nm1, st1⟩
    have hs1 : st1.saves = [] := by
      have := resolveName_saves key nm st
      rw [h1] at this
      rw [this, hs]
    have hP1 : ∀ v, nm1.lookup "latest_build" = some v → v ≠ "last_export.json" := by
      have := resolveName_latest key nm st hP
      rw [h1] at this
      exact this
    have h2 := trySaveW_nil st1 hs1 (dir ++ "/" ++ fn) (FVal.shardF "1" genAt items)
    obtain ⟨hA, hB, hC⟩ := ih nm1 st1 hs1 hP1
    refine ⟨?_, ?_, ?_⟩
    · intro p hp
      simp only [writeShards, h1, h2, List.mem_append, List.mem_singleton] at hp
      rcases hp with hp | hp
      · subst hp
        exact hdir fn
      · exact hA p hp
    · simp only [writeShards, h1, h2]
      exact hB
    · simp only [writeShards, h1, h2]
      exact hC

/-- Invariant of the conversation loop: all write paths lie under the chunk
directory, the exhausted save oracle stays exhausted, and the `latest_build`
entry stays safe. -/
theorem processConvs_inv :
    ∀ (convs : List DbRow) (g : Groups) (cnt : Nat) (nm : NMap) (st : St), st.saves = [] →
      (∀ v, nm.lookup "latest_build" = some v → v ≠ "last_export.json") →
      (∀ p ∈ (processConvs convs g cnt nm st).2.2.1, p.1 ≠ LAST_EXPORT_FILE) ∧
      (processConvs convs g cnt nm st).2.2.2.2.saves = [] ∧
      (∀ v, (processConvs convs g cnt nm st).2.2.2.1.lookup "latest_build" = some v →
        v ≠ "last_export.json") := by
  intro convs
  induction convs with
  | nil =>
    intro g cnt nm st hs hP
    exact ⟨by simp [processConvs], by simpa [processConvs], by simpa [processConvs]⟩
  | cons r rest ih =>
    intro g cnt nm st hs hP
    by_cases hse : (should_export_conversation r.content r.summary).1
    · rcases h1 : writeChunks r.id r.createdIso r.source
          (should_export_conversation r.content r.summary).2
          (chunk_content (redact_content r.content) CHUNK_SIZE) nm st with ⟨urls, w1, nm1, st1⟩
      obtain ⟨hA, hB, hC⟩ := writeChunks_inv r.id r.createdIso r.source
        (should_export_conversation r.content r.summary).2
        (chunk_content (redact_content r.content) CHUNK_SIZE) nm st hs hP
      rw [h1] at hA hB hC
      obtain ⟨hA2, hB2, hC2⟩ := ih _ _ nm1 st1 hB hC
      refine ⟨?_, ?_, ?_⟩
      · intro p hp
        simp only [processConvs, hse, Bool.not_true, Bool.false_eq_true, if_false, h1,
          List.mem_append] at hp
        rcases hp with hp | hp
        · exact hA p hp
        · exact hA2 p hp
      · simp only [processConvs, hse, Bool.not_true, Bool.false_eq_true, if_false, h1]
        exact hB2
      · simp only [processConvs, hse, Bool.not_true, Bool.false_eq_true, if_false, h1]
        exact hC2
    · have hse' : (should_export_conversation r.content r.summary).1 = false :=
        Bool.not_eq_true _ ▸ (by simpa using hse)
      obtain ⟨hA, hB, hC⟩ := ih g cnt nm st hs hP
      refine ⟨?_, ?_, ?_⟩
      · intro p hp
        simp only [processConvs, hse', Bool.not_false, if_true] at hp
        exact hA p hp
      · simp only [processConvs, hse', Bool.not_false, if_true]
        exact hB
      · simp only [processConvs, hse', Bool.not_false, if_true]
        exact hC

end GitMirror

namespace GitMirror

/-- The search-map fallback and nonce filenames of `latest_build` never equal
the watermark filename. -/
theorem resolveName_latest_fn (nm : NMap) (st : St)
    (hP : ∀ v, nm.lookup "latest_build" = some v → v ≠ "last_export.json") :
    (resolveName "latest_build" nm st).1 ≠ "last_export.json" := by
  rcases hl : nm.lookup "latest_build" with _ | fn
  · rcases h2 : takeNonce st with ⟨o, st'⟩
    rcases o with _ | n
    · simp only [resolveName, hl, h2, get_nonce_filename]
      decide
    · simp only [resolveName, hl, h2, get_nonce_filename]
      exact mkNonce_latest_ne n
  · simp only [resolveName, hl, get_nonce_filename]
    exact hP fn hl

/-- A metadata path differs from the watermark path unless the filenames
agree. -/
theorem metaPath_ne (fn : String) (h : fn ≠ "last_export.json") :
    META_DIR ++ "/" ++ fn ≠ LAST_EXPORT_FILE := by
  intro he
  apply h
  apply string_append_right_inj (META_DIR ++ "/")
  rw [he]
  decide

/-- Counterexample to C1 as stated: an incremental run whose `git push` fails
returns failure and leaves the watermark file untouched, but has already
written the nonce-map file, with four new entries (the map was loaded empty),
before the publish step. -/
theorem watermark_nonce_order_cex :
    runPushFail.1 = false ∧
    load_nonce_map none = [] ∧
    (NONCE_MAP_FILE,
      FVal.nonceF [("7-0", "7-0_n1.json"), ("memory", "memory_n2.json"),
        ("2025-08", "2025-08_n3.json"), ("search_map", "search_map_n4.json")]) ∈ runPushFail.2 ∧
    (∀ p ∈ runPushFail.2, p.1 ≠ LAST_EXPORT_FILE) := by
  refine ⟨by decide, by decide, by decide, by decide⟩

/-- C1 (amended): with all file saves succeeding, (a) when `git add` or `git
push` fails the watermark file is never written (the run is retried on the
same window), (b) a successful run on a non-empty batch writes the watermark
as its final write, with the clock reading taken after the publish step (the
run end, not the run start), and (c) on any non-empty batch the nonce map is
persisted before the publish gate, so it is written even when the push then
fails. -/
theorem export_persist_order (nmFile : Option NMap) (w : Option String)
    (convs : List DbRow) (orc : Oracle) (hsave : orc.saves = [])
    (hbuild : ∀ v, (load_nonce_map nmFile).lookup "latest_build" = some v →
      v ≠ "last_export.json") :
    ((orc.gitAddOk = false ∨ orc.gitPushOk = false) →
      ∀ p ∈ (export_memory_to_git nmFile w convs orc).2, p.1 ≠ LAST_EXPORT_FILE) ∧
    ((export_memory_to_git nmFile w convs orc).1 = true → convs ≠ [] →
      ∃ ws, (export_memory_to_git nmFile w convs orc).2
        = ws ++ [(LAST_EXPORT_FILE, FVal.lastF orc.endIso true)]) ∧
    (convs ≠ [] →
      ∃ m, (NONCE_MAP_FILE, FVal.nonceF m) ∈ (export_memory_to_git nmFile w convs orc).2) := by
  by_cases hc : convs.isEmpty
  · have hc' : convs = [] := by cases convs <;> simp_all
    subst hc'
    cases w <;> simp [export_memory_to_git]
  · have hce : convs.isEmpty = false := by simpa using hc
    have hst0 : (⟨orc.nonces, orc.saves⟩ : St).saves = [] := hsave
    rcases hE1 : processConvs convs ⟨[], []⟩ 0 (load_nonce_map nmFile)
        ⟨orc.nonces, orc.saves⟩ with ⟨g, cnt, w1, nm1, st1⟩
    obtain ⟨hA1, hB1, hC1⟩ := processConvs_inv convs ⟨[], []⟩ 0 (load_nonce_map nmFile)
      ⟨orc.nonces, orc.saves⟩ hst0 hbuild
    rw [hE1] at hA1 hB1 hC1
    rcases hE2 : writeShards SHARD_TAG_DIR orc.nowIso g.byTag nm1 st1 with ⟨w2, nm2, st2⟩
    obtain ⟨hA2, hB2, hC2⟩ := writeShards_inv SHARD_TAG_DIR orc.nowIso
      (fun fn => prefixed_ne (SHARD_TAG_DIR ++ "/") fn LAST_EXPORT_FILE 17 (by decide) (by decide))
      g.byTag nm1 st1 hB1 hC1
    rw [hE2] at hA2 hB2 hC2
    rcases hE3 : writeShards SHARD_DATE_DIR orc.nowIso g.byMonth nm2 st2 with ⟨w3, nm3, st3⟩
    obtain ⟨hA3, hB3, hC3⟩ := writeShards_inv SHARD_DATE_DIR orc.nowIso
      (fun fn => prefixed_ne (SHARD_DATE_DIR ++ "/") fn LAST_EXPORT_FILE 17 (by decide) (by decide))
      g.byMonth nm2 st2 hB2 hC2
    rw [hE3] at hA3 hB3 hC3
    rcases hE4 : resolveName "search_map" nm3 st3 with ⟨smFn, nm4, st4⟩
    have hB4 : st4.saves = [] := by
      have := resolveName_saves "search_map" nm3 st3
      rw [hE4] at this
      rw [this, hB3]
    have hC4 : ∀ v, nm4.lookup "latest_build" = some v → v ≠ "last_export.json" := by
      have := resolveName_latest "search_map" nm3 st3 hC3
      rw [hE4] at this
      exact this
    have h5 := trySaveW_nil st4 hB4 (CATALOG_DIR ++ "/" ++ smFn)
      (FVal.searchF "1" (searchTokens g.byTag nm3) "nonce_based_urls"
        "URLs use random nonces for security through obscurity")
    have h6 := trySaveW_nil st4 hB4 NONCE_MAP_FILE (FVal.nonceF nm4)
    rcases hE7 : resolveName "latest_build" nm4 st4 with ⟨buildFn, nm5, st7⟩
    have hB7 : st7.saves = [] := by
      have := resolveName_saves "latest_build" nm4 st4
      rw [hE7] at this
      rw [this, hB4]
    have hbuildFn : buildFn ≠ "last_export.json" := by
      have := resolveName_latest_fn nm4 st4 hC4
      rw [hE7] at this
      exact this
    have h8 := trySaveW_nil st7 hB7 (META_DIR ++ "/" ++ buildFn)
      (FVal.buildF orc.nowIso ((g.byTag.map (fun p => p.2.length)).sum) cnt w.isSome
        ("catalog/" ++ smFn))
    have h9 := trySaveW_nil st7 hB7 LAST_EXPORT_FILE (FVal.lastF orc.endIso true)
    have hwmem : ∀ p ∈ w1 ++ w2 ++ w3 ++
        [(CATALOG_DIR ++ "/" ++ smFn,
          FVal.searchF "1" (searchTokens g.byTag nm3) "nonce_based_urls"
            "URLs use random nonces for security through obscurity")] ++
        [(NONCE_MAP_FILE, FVal.nonceF nm4)] ++
        [(META_DIR ++ "/" ++ buildFn,
          FVal.buildF orc.nowIso ((g.byTag.map (fun p => p.2.length)).sum) cnt w.isSome
            ("catalog/" ++ smFn))], p.1 ≠ LAST_EXPORT_FILE := by
      intro p hp
      simp only [List.mem_append, List.mem_singleton] at hp
      rcases hp with ((((hp | hp) | hp) | hp) | hp) | hp
      · exact hA1 p hp
      · exact hA2 p hp
      · exact hA3 p hp
      · subst hp
        exact prefixed_ne (CATALOG_DIR ++ "/") smFn LAST_EXPORT_FILE 17 (by decide) (by decide)
      · subst hp
        exact (by decide : NONCE_MAP_FILE ≠ LAST_EXPORT_FILE)
      · subst hp
        exact metaPath_ne buildFn hbuildFn
    simp only [export_memory_to_git, hce, Bool.false_eq_true, if_false, hE1, hE2, hE3, hE4,
      h5, h6, hE7, h8, h9]
    rcases hadd : orc.gitAddOk with _ | _
    · simp only [Bool.not_false, if_true]
      refine ⟨fun _ => hwmem, ?_, ?_⟩
      · intro hfalse
        simp at hfalse
      · intro _
        exact ⟨nm4, by simp⟩
    · rcases hpush : orc.gitPushOk with _ | _
      · simp only [Bool.not_false, Bool.not_true, if_false, if_true]
        refine ⟨fun _ => hwmem, ?_, ?_⟩
        · intro hfalse
          simp at hfalse
        · intro _
          exact ⟨nm4, by simp⟩
      · simp only [Bool.not_true, if_false]
        refine ⟨?_, ?_, ?_⟩
        · intro hor
          rcases hor with hor | hor
          · exact absurd hor (by simp)
          · exact absurd hor (by simp)
        · intro _ _
          exact ⟨_, rfl⟩
        · intro _
          exact ⟨nm4, by simp⟩

/-- Witness for the amended C1 at concrete inputs. -/
theorem export_persist_order_witness :
    (orcA.saves = [] ∧
      (∀ v, (load_nonce_map none).lookup "latest_build" = some v →
        v ≠ "last_export.json")) ∧
    (∃ ws, (export_memory_to_git none none [rowA] orcA).2
      = ws ++ [(LAST_EXPORT_FILE, FVal.lastF orcA.endIso true)]) ∧
    (∃ m, (NONCE_MAP_FILE, FVal.nonceF m) ∈ (export_memory_to_git none none [rowA] orcA).2) := by
  have h := export_persist_order none none [rowA] orcA rfl (by simp [load_nonce_map, List.lookup])
  exact ⟨⟨rfl, by simp [load_nonce_map, List.lookup]⟩,
    h.2.1 (by decide) (by simp), h.2.2 (by simp)⟩

end GitMirror

namespace GitMirror

/-! ### C4: idempotence of redaction — scan and matcher basics -/

/-- A scan with no matches anywhere copies its input (e-mail). -/
theorem goE_id (f : Nat) : ∀ s, noEmailAll s → goE f s = s := by
  induction f with
  | zero => intro s _; rfl
  | succ f ih =>
    intro s hs
    cases s with
    | nil => rfl
    | cons c r =>
      simp only [goE, hs.1]
      rw [ih r hs.2]

/-- A scan with no matches anywhere copies its input (phone). -/
theorem goP_id (f : Nat) : ∀ prev s, noPhoneFrom prev s → goP f prev s = s := by
  induction f with
  | zero => intro prev s _; rfl
  | succ f ih =>
    intro prev s hs
    cases s with
    | nil => rfl
    | cons c r =>
      simp only [goP, hs.1]
      rw [ih (some c) r hs.2]

/-- A scan with no matches anywhere copies its input (IP). -/
theorem goI_id (f : Nat) : ∀ prev s, noIPFrom prev s → goI f prev s = s := by
  induction f with
  | zero => intro prev s _; rfl
  | succ f ih =>
    intro prev s hs
    cases s with
    | nil => rfl
    | cons c r =>
      simp only [goI, hs.1]
      rw [ih (some c) r hs.2]

/-- An e-mail match is at least one character long. -/
theorem emailHere_pos (s : List Char) (n : Nat) (h : emailHere s = some n) : 1 ≤ n := by
  unfold emailHere at h
  by_cases ha : (s.takeWhile localChar).isEmpty
  · simp [ha] at h
  · simp only [ha, Bool.false_eq_true, if_false] at h
    by_cases hat : (s.drop (s.takeWhile localChar).length).getD 0 ' ' = '@'
    · rw [if_pos hat] at h
      split at h
      · simp only [Option.some.injEq] at h
        omega
      · exact absurd h (by simp)
    · rw [if_neg hat] at h
      exact absurd h (by simp)

/-- Either the e-mail scan copies its input, or its output is a proper prefix
of the input followed by an opening angle bracket (the start of a
placeholder). -/
theorem goE_decomp (f : Nat) : ∀ s,
    goE f s = s ∨ ∃ k rest, k ≤ s.length ∧ goE f s = s.take k ++ '<' :: rest := by
  induction f with
  | zero => intro s; exact Or.inl rfl
  | succ f ih =>
    intro s
    cases s with
    | nil => exact Or.inl rfl
    | cons c r =>
      cases hm : emailHere (c :: r) with
      | some n =>
        refine Or.inr ⟨0, "redacted.email>".toList ++ goE f ((c :: r).drop n), by omega, ?_⟩
        simp [goE, hm, phE]
      | none =>
        rcases ih r with hr | ⟨k, rest, hk, hr⟩
        · refine Or.inl ?_
          simp [goE, hm, hr]
        · refine Or.inr ⟨k + 1, rest, by simp; omega, ?_⟩
          simp [goE, hm, hr]

end GitMirror

namespace GitMirror

/-! ### takeWhile and getD helpers -/

/-- The length of a `takeWhile` equals the list length iff it is the list. -/
theorem takeWhile_len_eq {f : Char → Bool} {u : List Char}
    (h : (u.takeWhile f).length = u.length) : u.takeWhile f = u :=
  (List.takeWhile_prefix f).eq_of_length h

/-- Appending after a failing character does not extend a `takeWhile`. -/
theorem takeWhile_append_stop_char {f : Char → Bool} (u : List Char) (c : Char) (w : List Char)
    (hc : f c = false) : (u ++ c :: w).takeWhile f = u.takeWhile f := by
  rw [List.takeWhile_append]
  split
  · rename_i he
    rw [takeWhile_len_eq he, List.takeWhile_cons, hc]
    simp
  · rfl

/-- `takeWhile` lengths grow along append. -/
theorem takeWhile_append_ge {f : Char → Bool} (u v : List Char) :
    (u.takeWhile f).length ≤ ((u ++ v).takeWhile f).length := by
  rw [List.takeWhile_append]
  split
  · rename_i he
    simp only [List.length_append]
    have := (@List.takeWhile_sublist _ u f).length_le
    omega
  · exact le_refl _

/-- A `takeWhile` that stops inside `u` ignores what follows. -/
theorem takeWhile_append_stopped {f : Char → Bool} (u v : List Char)
    (h : (u.takeWhile f).length < u.length) : (u ++ v).takeWhile f = u.takeWhile f := by
  rw [List.takeWhile_append]
  split
  · rename_i he
    omega
  · rfl

/-- `getD` on the left part of an append. -/
theorem getD_append_left (u v : List Char) (n : Nat) (h : n < u.length) :
    (u ++ v).getD n ' ' = u.getD n ' ' := by
  simp [List.getD_eq_getElem?_getD, List.getElem?_append_left h]

/-- `getD` of a drop shifts the index. -/
theorem getD_drop (l : List Char) (n i : Nat) : (l.drop n).getD i ' ' = l.getD (n + i) ' ' := by
  simp [List.getD_eq_getElem?_getD, List.getElem?_drop]

/-- Inside its length, a `takeWhile` reads the original characters. -/
theorem getD_takeWhile (f : Char → Bool) (l : List Char) (j : Nat)
    (h : j < (l.takeWhile f).length) : (l.takeWhile f).getD j ' ' = l.getD j ' ' := by
  obtain ⟨t, ht⟩ := (@List.takeWhile_prefix _ l f)
  conv_rhs => rw [← ht]
  rw [getD_append_left _ _ _ h]

/-- Characters inside a `takeWhile` satisfy the predicate. -/
theorem takeWhile_prop_getD (f : Char → Bool) (l : List Char) (j : Nat)
    (h : j < (l.takeWhile f).length) : f (l.getD j ' ') = true := by
  rw [← getD_takeWhile f l j h]
  rw [List.getD_eq_getElem (l.takeWhile f) ' ' h]
  exact List.mem_takeWhile_imp (List.getElem_mem h)

/-- The right boundary after `n` characters, read through `getD` (the default
space is not a word character, so an absent character also yields a
boundary). -/
theorem bdryR_getD (s : List Char) (n : Nat) :
    bdryR (s.drop n) = !wordChar (s.getD n ' ') := by
  cases h : s.drop n with
  | nil =>
    have hlen : s.length ≤ n := by
      have := List.drop_eq_nil_iff.mp h
      omega
    rw [List.getD_eq_default _ _ hlen]
    rfl
  | cons c r =>
    have : s.getD n ' ' = c := by
      have h0 : (s.drop n).getD 0 ' ' = c := by rw [h]; rfl
      rw [getD_drop] at h0
      simpa using h0
    rw [this]
    rfl

end GitMirror



namespace GitMirror

/-! ### e-mail matcher characterization and transfer -/

/-- Success of the e-mail matcher, characterized positionally: the greedy
local run is nonempty and followed by `@`, and some dot of the greedy domain
run (not its first character) is followed by at least two final-class
characters (read in the full string). -/
theorem emailHere_some_iff (s : List Char) :
    (emailHere s).isSome = true ↔
      (s.takeWhile localChar ≠ [] ∧
        (s.drop (s.takeWhile localChar).length).getD 0 ' ' = '@' ∧
        ∃ k, 1 ≤ k ∧ k < ((s.drop ((s.takeWhile localChar).length + 1)).takeWhile domChar).length ∧
          ((s.drop ((s.takeWhile localChar).length + 1)).takeWhile domChar).getD k ' ' = '.' ∧
          2 ≤ (((s.drop ((s.takeWhile localChar).length + 1)).drop (k + 1)).takeWhile
            tldChar).length) := by
  unfold emailHere
  by_cases ha : (s.takeWhile localChar).isEmpty
  · simp only [ha, if_true, Option.isSome_none, Bool.false_eq_true, false_iff, not_and]
    intro hne
    exact absurd (List.isEmpty_iff.mp ha) hne
  · have ha' : s.takeWhile localChar ≠ [] := by
      intro he
      rw [he] at ha
      exact ha rfl
    simp only [ha, Bool.false_eq_true, if_false]
    by_cases hat : (s.drop (s.takeWhile localChar).length).getD 0 ' ' = '@'
    · rw [if_pos hat]
      cases hf : (List.range ((s.drop ((s.takeWhile localChar).length + 1)).takeWhile
          domChar).length).reverse.find? (fun k =>
          decide (1 ≤ k) &&
            (((s.drop ((s.takeWhile localChar).length + 1)).takeWhile domChar).getD k ' ' == '.') &&
          decide (2 ≤ (((s.drop ((s.takeWhile localChar).length + 1)).drop
            (k + 1)).takeWhile tldChar).length)) with
      | some k =>
        simp only [Option.isSome_some, true_iff]
        have hp := List.find?_some hf
        simp only [Bool.and_eq_true, decide_eq_true_eq, beq_iff_eq] at hp
        have hm := List.mem_of_find?_eq_some hf
        rw [List.mem_reverse, List.mem_range] at hm
        exact ⟨ha', hat, k, hp.1.1, hm, hp.1.2, hp.2⟩
      | none =>
        simp only [Option.isSome_none, Bool.false_eq_true, false_iff, not_and]
        intro _ _
        rintro ⟨k, hk1, hk2, hk3, hk4⟩
        have hmem : k ∈ (List.range ((s.drop ((s.takeWhile localChar).length + 1)).takeWhile
            domChar).length).reverse := by
          rw [List.mem_reverse, List.mem_range]
          exact hk2
        have := List.find?_eq_none.mp hf k hmem
        simp only [Bool.and_eq_true, decide_eq_true_eq, beq_iff_eq, not_and] at this
        exact (this ⟨hk1, hk3⟩ hk4).elim
    · rw [if_neg hat]
      simp only [Option.isSome_none, Bool.false_eq_true, false_iff, not_and]
      intro _ h
      exact absurd h hat

end GitMirror

namespace GitMirror

/-- Transfer of an e-mail match out of a placeholder context: a match in
`x ++ '<' :: w` forces a match (at the same starting position) in `x ++ z`,
for any `z` — all decisive reads stop at the bracket, and the dot--final-run
witness only improves when the bracket is replaced by other text. -/
theorem emailHere_transfer (x w z : List Char)
    (h : (emailHere (x ++ '<' :: w)).isSome = true) :
    (emailHere (x ++ z)).isSome = true := by
  rw [emailHere_some_iff] at h
  obtain ⟨ha, hat, k, hk1, hk2, hk3, hk4⟩ := h
  have haeq : (x ++ '<' :: w).takeWhile localChar = x.takeWhile localChar :=
    takeWhile_append_stop_char x '<' w (by decide)
  rw [haeq] at ha hat hk2 hk3 hk4
  have halen : (x.takeWhile localChar).length ≤ x.length :=
    (List.takeWhile_sublist _).length_le
  have hproper : (x.takeWhile localChar).length < x.length := by
    rcases Nat.lt_or_ge (x.takeWhile localChar).length x.length with hlt | hge
    · exact hlt
    · have he : (x.takeWhile localChar).length = x.length := le_antisymm halen hge
      rw [he, List.drop_left] at hat
      have : ('<' :: w).getD 0 ' ' = '<' := rfl
      rw [this] at hat
      exact absurd hat (by decide)
  have hat2 : x.getD (x.takeWhile localChar).length ' ' = '@' := by
    rw [getD_drop] at hat
    rw [← getD_append_left x ('<' :: w) _ hproper]
    simpa using hat
  have hsucc : (x.takeWhile localChar).length + 1 ≤ x.length := hproper
  have hs2s : (x ++ '<' :: w).drop ((x.takeWhile localChar).length + 1)
      = x.drop ((x.takeWhile localChar).length + 1) ++ '<' :: w :=
    List.drop_append_of_le_length hsucc
  rw [hs2s] at hk2 hk3 hk4
  have hds : (x.drop ((x.takeWhile localChar).length + 1) ++ '<' :: w).takeWhile domChar
      = (x.drop ((x.takeWhile localChar).length + 1)).takeWhile domChar :=
    takeWhile_append_stop_char _ '<' w (by decide)
  rw [hds] at hk2 hk3
  have hdlen : ((x.drop ((x.takeWhile localChar).length + 1)).takeWhile domChar).length
      ≤ (x.drop ((x.takeWhile localChar).length + 1)).length :=
    (List.takeWhile_sublist _).length_le
  have hkx2 : k < (x.drop ((x.takeWhile localChar).length + 1)).length := by omega
  have hdotx : (x.drop ((x.takeWhile localChar).length + 1)).getD k ' ' = '.' := by
    rw [← getD_takeWhile domChar _ k hk2]
    exact hk3
  have hk1x2 : k + 1 ≤ (x.drop ((x.takeWhile localChar).length + 1)).length := hkx2
  have hdropk : (x.drop ((x.takeWhile localChar).length + 1) ++ '<' :: w).drop (k + 1)
      = (x.drop ((x.takeWhile localChar).length + 1)).drop (k + 1) ++ '<' :: w :=
    List.drop_append_of_le_length hk1x2
  rw [hdropk] at hk4
  have htlds : ((x.drop ((x.takeWhile localChar).length + 1)).drop (k + 1) ++ '<' :: w).takeWhile
      tldChar = ((x.drop ((x.takeWhile localChar).length + 1)).drop (k + 1)).takeWhile tldChar :=
    takeWhile_append_stop_char _ '<' w (by decide)
  rw [htlds] at hk4
  rw [emailHere_some_iff]
  have hza : (x ++ z).takeWhile localChar = x.takeWhile localChar :=
    takeWhile_append_stopped x z (by
      have hx : x.takeWhile localChar = (x.takeWhile localChar) := rfl
      exact hproper)
  rw [hza]
  have hs2z : (x ++ z).drop ((x.takeWhile localChar).length + 1)
      = x.drop ((x.takeWhile localChar).length + 1) ++ z :=
    List.drop_append_of_le_length hsucc
  rw [hs2z]
  refine ⟨ha, ?_, k, hk1, ?_, ?_, ?_⟩
  · rw [getD_drop, Nat.add_zero, getD_append_left x z _ hproper]
    exact hat2
  · calc k < ((x.drop ((x.takeWhile localChar).length + 1)).takeWhile domChar).length := hk2
      _ ≤ ((x.drop ((x.takeWhile localChar).length + 1) ++ z).takeWhile domChar).length :=
        takeWhile_append_ge _ z
  · have hklt : k < ((x.drop ((x.takeWhile localChar).length + 1) ++ z).takeWhile
        domChar).length :=
      Nat.lt_of_lt_of_le hk2 (takeWhile_append_ge _ z)
    rw [getD_takeWhile domChar _ k hklt]
    rw [getD_append_left _ z k hkx2]
    exact hdotx
  · have hdz : (x.drop ((x.takeWhile localChar).length + 1) ++ z).drop (k + 1)
        = (x.drop ((x.takeWhile localChar).length + 1)).drop (k + 1) ++ z :=
      List.drop_append_of_le_length hk1x2
    rw [hdz]
    calc (2 : Nat) ≤ (((x.drop ((x.takeWhile localChar).length + 1)).drop (k + 1)).takeWhile
          tldChar).length := hk4
      _ ≤ _ := takeWhile_append_ge _ z

/-- Contrapositive form of the transfer: if the original text has no match at
a position, the placeholder form has none either. -/
theorem emailHere_none_congr (x w z : List Char) (h : emailHere (x ++ z) = none) :
    emailHere (x ++ '<' :: w) = none := by
  cases hm : emailHere (x ++ '<' :: w) with
  | none => rfl
  | some n =>
    have := emailHere_transfer x w z (by rw [hm]; rfl)
    rw [h] at this
    exact absurd this (by simp)

end GitMirror

namespace GitMirror

/-! ### placeholders are inert for the e-mail pattern -/

/-- A `takeWhile` over an all-satisfying list is the list. -/
theorem takeWhile_all {f : Char → Bool} : ∀ (y : List Char), (∀ c ∈ y, f c = true) →
    y.takeWhile f = y := by
  intro y
  induction y with
  | nil => intro _; rfl
  | cons c r ih =>
    intro h
    rw [List.takeWhile_cons, if_pos (h c (by simp))]
    rw [ih (fun d hd => h d (by simp [hd]))]

/-- No e-mail match can start on a character outside the local class. -/
theorem emailHere_notL (c : Char) (r : List Char) (h : localChar c = false) :
    emailHere (c :: r) = none := by
  unfold emailHere
  rw [List.takeWhile_cons, h]
  rfl

/-- No e-mail match can start on a local run that ends at a closing angle
bracket (the end of a placeholder): the mandatory `@` is missing. -/
theorem emailHere_stop_gt (y t : List Char) (hy : ∀ c ∈ y, localChar c = true) :
    emailHere (y ++ '>' :: t) = none := by
  have h1 : (y ++ '>' :: t).takeWhile localChar = y := by
    rw [takeWhile_append_stop_char y '>' t (by decide)]
    exact takeWhile_all y hy
  unfold emailHere
  rw [h1]
  by_cases hy0 : y.isEmpty
  · rw [if_pos hy0]
  · rw [if_neg hy0, List.drop_left]
    have : ('>' :: t).getD 0 ' ' = '>' := rfl
    rw [if_neg (by rw [this]; decide)]

/-- A local-class run followed by a closing bracket admits no e-mail match at
any position. -/
theorem noEmailAll_Lrun_gt : ∀ (y : List Char), (∀ c ∈ y, localChar c = true) →
    ∀ X, noEmailAll X → noEmailAll (y ++ '>' :: X) := by
  intro y
  induction y with
  | nil =>
    intro _ X hX
    exact ⟨emailHere_notL '>' X (by decide), hX⟩
  | cons c r ih =>
    intro hy X hX
    refine ⟨emailHere_stop_gt (c :: r) X hy, ?_⟩
    exact ih (fun d hd => hy d (by simp [hd])) X hX

/-- `noEmailAll` is closed under suffixes. -/
theorem noEmailAll_drop : ∀ (n : Nat) (s : List Char), noEmailAll s → noEmailAll (s.drop n) := by
  intro n
  induction n with
  | zero => intro s hs; exact hs
  | succ n ih =>
    intro s hs
    cases s with
    | nil => exact trivial
    | cons c r => exact ih r hs.2

/-- A phone match has length 12. -/
theorem phoneAt_some_eq (prev : Option Char) (s : List Char) (n : Nat)
    (h : phoneAt prev s = some n) : n = 12 := by
  unfold phoneAt at h
  split at h
  · simpa using h.symm
  · exact absurd h (by simp)

/-- The result of `ip4` is at least its accumulator. -/
theorem ip4_ge (acc : Nat) (t4 : List Char) (n : Nat) (h : ip4 acc t4 = some n) :
    acc ≤ n := by
  simp only [ip4] at h
  repeat' split at h
  all_goals simp only [Option.some.injEq, reduceCtorEq] at h
  omega

/-- The result of `ip3` is at least its accumulator. -/
theorem ip3_ge (acc : Nat) (t3 : List Char) (n : Nat) (h : ip3 acc t3 = some n) :
    acc ≤ n := by
  simp only [ip3] at h
  repeat' split at h
  all_goals first
    | exact absurd h (by simp)
    | (have h9 := ip4_ge _ _ _ h; omega)

/-- The result of `ip2` is at least its accumulator. -/
theorem ip2_ge (acc : Nat) (t2 : List Char) (n : Nat) (h : ip2 acc t2 = some n) :
    acc ≤ n := by
  simp only [ip2] at h
  repeat' split at h
  all_goals first
    | exact absurd h (by simp)
    | (have h9 := ip3_ge _ _ _ h; omega)

/-- An IP match is at least one character long. -/
theorem ipAt_pos (prev : Option Char) (s : List Char) (n : Nat)
    (h : ipAt prev s = some n) : 1 ≤ n := by
  simp only [ipAt] at h
  repeat' split at h
  all_goals first
    | exact absurd h (by simp)
    | (have h9 := ip2_ge _ _ _ h; omega)

end GitMirror

namespace GitMirror

/-! ### scan decompositions with match evidence -/

/-- Either the phone scan copies its input, or its output is a prefix of the
input followed by a placeholder, with a phone match at the cut (with the
original character before the cut as its left context). -/
theorem goP_decomp (f : Nat) : ∀ prev s, goP f prev s = s ∨
    ∃ k rest m, k ≤ s.length ∧ goP f prev s = s.take k ++ '<' :: rest ∧
      phoneAt (if k = 0 then prev else some (s.getD (k - 1) ' ')) (s.drop k) = some m := by
  induction f with
  | zero => intro prev s; exact Or.inl rfl
  | succ f ih =>
    intro prev s
    cases s with
    | nil => exact Or.inl rfl
    | cons c r =>
      cases hm : phoneAt prev (c :: r) with
      | some n =>
        refine Or.inr ⟨0, "redacted.phone>".toList ++
          goP f (some ((c :: r).getD (n - 1) c)) ((c :: r).drop n), n, by omega, ?_, ?_⟩
        · simp [goP, hm, phP]
        · simpa using hm
      | none =>
        rcases ih (some c) r with hr | ⟨k, rest, m, hk, hr, hmat⟩
        · refine Or.inl ?_
          simp [goP, hm, hr]
        · refine Or.inr ⟨k + 1, rest, m, by simp; omega, ?_, ?_⟩
          · simp [goP, hm, hr]
          · have hctx : (if k + 1 = 0 then prev else some ((c :: r).getD (k + 1 - 1) ' '))
                = (if k = 0 then some c else some (r.getD (k - 1) ' ')) := by
              cases k with
              | zero => rfl
              | succ k0 => rfl
            rw [hctx]
            exact hmat
      
/-- The analogous decomposition for the IP scan. -/
theorem goI_decomp (f : Nat) : ∀ prev s, goI f prev s = s ∨
    ∃ k rest m, k ≤ s.length ∧ goI f prev s = s.take k ++ '<' :: rest ∧
      ipAt (if k = 0 then prev else some (s.getD (k - 1) ' ')) (s.drop k) = some m := by
  induction f with
  | zero => intro prev s; exact Or.inl rfl
  | succ f ih =>
    intro prev s
    cases s with
    | nil => exact Or.inl rfl
    | cons c r =>
      cases hm : ipAt prev (c :: r) with
      | some n =>
        refine Or.inr ⟨0, "redacted.ip>".toList ++
          goI f (some ((c :: r).getD (n - 1) c)) ((c :: r).drop n), n, by omega, ?_, ?_⟩
        · simp [goI, hm, phI]
        · simpa using hm
      | none =>
        rcases ih (some c) r with hr | ⟨k, rest, m, hk, hr, hmat⟩
        · refine Or.inl ?_
          simp [goI, hm, hr]
        · refine Or.inr ⟨k + 1, rest, m, by simp; omega, ?_, ?_⟩
          · simp [goI, hm, hr]
          · have hctx : (if k + 1 = 0 then prev else some ((c :: r).getD (k + 1 - 1) ' '))
                = (if k = 0 then some c else some (r.getD (k - 1) ' ')) := by
              cases k with
              | zero => rfl
              | succ k0 => rfl
            rw [hctx]
            exact hmat

/-! ### no e-mail match survives any of the three scans -/

/-- Output of the e-mail scan admits no e-mail match at any position. -/
theorem goE_noEmail (f : Nat) : ∀ s, s.length ≤ f → noEmailAll (goE f s) := by
  induction f with
  | zero =>
    intro s hf
    have : s = [] := List.eq_nil_of_length_eq_zero (Nat.le_zero.mp hf)
    subst this
    exact trivial
  | succ f ih =>
    intro s hf
    cases s with
    | nil => exact trivial
    | cons c r =>
      cases hm : emailHere (c :: r) with
      | some n =>
        have hn := emailHere_pos _ _ hm
        have hlen : ((c :: r).drop n).length ≤ f := by
          simp only [List.length_drop, List.length_cons]
          simp only [List.length_cons] at hf
          omega
        have hX := ih ((c :: r).drop n) hlen
        have hshape : goE (f + 1) (c :: r)
            = '<' :: ("redacted.email".toList ++ '>' :: goE f ((c :: r).drop n)) := by
          simp only [goE, hm]
          rfl
        rw [hshape]
        exact ⟨emailHere_notL '<' _ (by decide),
          noEmailAll_Lrun_gt "redacted.email".toList (by decide) _ hX⟩
      | none =>
        have hshape : goE (f + 1) (c :: r) = c :: goE f r := by
          simp [goE, hm]
        rw [hshape]
        refine ⟨?_, ih r (by simp only [List.length_cons] at hf; omega)⟩
        rcases goE_decomp f r with he | ⟨k, rest, hk, he⟩
        · rw [he]
          exact hm
        · rw [he]
          show emailHere ((c :: r.take k) ++ '<' :: rest) = none
          apply emailHere_none_congr _ _ (r.drop k)
          have : (c :: r.take k) ++ r.drop k = c :: r := by
            simp [List.take_append_drop]
          rw [this]
          exact hm

/-- The phone scan preserves the absence of e-mail matches. -/
theorem goP_noEmail (f : Nat) : ∀ prev s, s.length ≤ f → noEmailAll s →
    noEmailAll (goP f prev s) := by
  induction f with
  | zero => intro prev s _ hs; exact hs
  | succ f ih =>
    intro prev s hf hs
    cases s with
    | nil => exact trivial
    | cons c r =>
      cases hm : phoneAt prev (c :: r) with
      | some n =>
        have hn12 := phoneAt_some_eq _ _ _ hm
        have hlen : ((c :: r).drop n).length ≤ f := by
          simp only [List.length_drop, List.length_cons]
          simp only [List.length_cons] at hf
          omega
        have hX := ih (some ((c :: r).getD (n - 1) c)) ((c :: r).drop n) hlen
          (by
            have := noEmailAll_drop n (c :: r) (by exact ⟨hs.1, hs.2⟩)
            exact this)
        have hshape : goP (f + 1) prev (c :: r)
            = '<' :: ("redacted.phone".toList ++ '>' ::
              goP f (some ((c :: r).getD (n - 1) c)) ((c :: r).drop n)) := by
          simp only [goP, hm]
          rfl
        rw [hshape]
        exact ⟨emailHere_notL '<' _ (by decide),
          noEmailAll_Lrun_gt "redacted.phone".toList (by decide) _ hX⟩
      | none =>
        have hshape : goP (f + 1) prev (c :: r) = c :: goP f (some c) r := by
          simp [goP, hm]
        rw [hshape]
        refine ⟨?_, ih (some c) r (by simp only [List.length_cons] at hf; omega) hs.2⟩
        rcases goP_decomp f (some c) r with he | ⟨k, rest, m, hk, he, -⟩
        · rw [he]
          exact hs.1
        · rw [he]
          show emailHere ((c :: r.take k) ++ '<' :: rest) = none
          apply emailHere_none_congr _ _ (r.drop k)
          have : (c :: r.take k) ++ r.drop k = c :: r := by
            simp [List.take_append_drop]
          rw [this]
          exact hs.1

/-- The IP scan preserves the absence of e-mail matches. -/
theorem goI_noEmail (f : Nat) : ∀ prev s, s.length ≤ f → noEmailAll s →
    noEmailAll (goI f prev s) := by
  induction f with
  | zero => intro prev s _ hs; exact hs
  | succ f ih =>
    intro prev s hf hs
    cases s with
    | nil => exact trivial
    | cons c r =>
      cases hm : ipAt prev (c :: r) with
      | some n =>
        have hn := ipAt_pos _ _ _ hm
        have hlen : ((c :: r).drop n).length ≤ f := by
          simp only [List.length_drop, List.length_cons]
          simp only [List.length_cons] at hf
          omega
        have hX := ih (some ((c :: r).getD (n - 1) c)) ((c :: r).drop n) hlen
          (noEmailAll_drop n (c :: r) hs)
        have hshape : goI (f + 1) prev (c :: r)
            = '<' :: ("redacted.ip".toList ++ '>' ::
              goI f (some ((c :: r).getD (n - 1) c)) ((c :: r).drop n)) := by
          simp only [goI, hm]
          rfl
        rw [hshape]
        exact ⟨emailHere_notL '<' _ (by decide),
          noEmailAll_Lrun_gt "redacted.ip".toList (by decide) _ hX⟩
      | none =>
        have hshape : goI (f + 1) prev (c :: r) = c :: goI f (some c) r := by
          simp [goI, hm]
        rw [hshape]
        refine ⟨?_, ih (some c) r (by simp only [List.length_cons] at hf; omega) hs.2⟩
        rcases goI_decomp f (some c) r with he | ⟨k, rest, m, hk, he, -⟩
        · rw [he]
          exact hs.1
        · rw [he]
          show emailHere ((c :: r.take k) ++ '<' :: rest) = none
          apply emailHere_none_congr _ _ (r.drop k)
          have : (c :: r.take k) ++ r.drop k = c :: r := by
            simp [List.take_append_drop]
          rw [this]
          exact hs.1

end GitMirror

namespace GitMirror

/-! ### phone matcher characterization -/

/-- Success of the phone matcher, characterized positionally. -/
theorem phoneAt_some_iff (prev : Option Char) (s : List Char) (n : Nat) :
    phoneAt prev s = some n ↔
      (n = 12 ∧ bdryL prev = true ∧
        (s.getD 0 ' ').isDigit = true ∧ (s.getD 1 ' ').isDigit = true ∧
        (s.getD 2 ' ').isDigit = true ∧ s.getD 3 ' ' = '-' ∧
        (s.getD 4 ' ').isDigit = true ∧ (s.getD 5 ' ').isDigit = true ∧
        (s.getD 6 ' ').isDigit = true ∧ s.getD 7 ' ' = '-' ∧
        (s.getD 8 ' ').isDigit = true ∧ (s.getD 9 ' ').isDigit = true ∧
        (s.getD 10 ' ').isDigit = true ∧ (s.getD 11 ' ').isDigit = true ∧
        wordChar (s.getD 12 ' ') = false) := by
  unfold phoneAt
  split
  · rename_i hcond
    simp only [Bool.and_eq_true, beq_iff_eq, Bool.not_eq_true'] at hcond
    constructor
    · intro h
      simp only [Option.some.injEq] at h
      refine ⟨h.symm, ?_, ?_, ?_, ?_, ?_, ?_, ?_, ?_, ?_, ?_, ?_, ?_, ?_, ?_⟩ <;> tauto
    · intro h
      rw [← h.1]
  · rename_i hcond
    constructor
    · intro h
      exact absurd h (by simp)
    · rintro ⟨-, hb, h0, h1, h2, h3, h4, h5, h6, h7, h8, h9, h10, h11, h12⟩
      exfalso
      apply hcond
      simp only [Bool.and_eq_true, beq_iff_eq, Bool.not_eq_true']
      tauto

/-- Digits are word characters. -/
theorem digit_word (c : Char) (h : c.isDigit = true) : wordChar c = true := by
  unfold wordChar
  rw [h]
  simp

/-- A phone match cannot start on a non-digit. -/
theorem phoneAt_head_nodigit (prev : Option Char) (s : List Char)
    (h : (s.getD 0 ' ').isDigit = false) : phoneAt prev s = none := by
  cases hm : phoneAt prev s with
  | none => rfl
  | some n =>
    have := (phoneAt_some_iff prev s n).mp hm
    rw [this.2.2.1] at h
    exact absurd h (by simp)

/-- `getD` at the junction of an append. -/
theorem getD_append_first (u v : List Char) (d : Char) : (u ++ v).getD u.length d = v.getD 0 d := by
  induction u with
  | nil => rfl
  | cons c r ih => simpa using ih

/-- `getD` inside a `take` reads the original list. -/
theorem getD_take (r : List Char) (k j : Nat) (h : j < k) :
    (r.take k).getD j ' ' = r.getD j ' ' := by
  rw [List.getD_eq_getElem?_getD, List.getD_eq_getElem?_getD, @List.getElem?_take_of_lt _ r k j h]

/-- The phone matcher reads only its thirteen-character window. -/
theorem phoneAt_append_congr (prev : Option Char) (x y z : List Char) (hx : 13 ≤ x.length) :
    phoneAt prev (x ++ y) = phoneAt prev (x ++ z) := by
  have key : ∀ (v : List Char) (i : Nat), i ≤ 12 → (x ++ v).getD i ' ' = x.getD i ' ' := by
    intro v i hi
    exact getD_append_left x v i (by omega)
  unfold phoneAt
  rw [key y 0 (by omega), key y 1 (by omega), key y 2 (by omega), key y 3 (by omega),
    key y 4 (by omega), key y 5 (by omega), key y 6 (by omega), key y 7 (by omega),
    key y 8 (by omega), key y 9 (by omega), key y 10 (by omega), key y 11 (by omega),
    key y 12 (by omega),
    key z 0 (by omega), key z 1 (by omega), key z 2 (by omega), key z 3 (by omega),
    key z 4 (by omega), key z 5 (by omega), key z 6 (by omega), key z 7 (by omega),
    key z 8 (by omega), key z 9 (by omega), key z 10 (by omega), key z 11 (by omega),
    key z 12 (by omega)]

/-- A changed left context cannot create a phone match when the head already
fails. -/
theorem noPhoneFrom_change_prev (X : List Char) (p1 p2 : Option Char)
    (h1 : noPhoneFrom p1 X) (h2 : phoneAt p2 X = none) : noPhoneFrom p2 X := by
  cases X with
  | nil => exact trivial
  | cons c r => exact ⟨h2, h1.2⟩

/-- `noPhoneFrom` is closed under drops, with the character before the cut as
new context. -/
theorem noPhoneFrom_drop : ∀ (n : Nat) (prev : Option Char) (s : List Char) (c₀ : Char),
    noPhoneFrom prev s → 1 ≤ n → noPhoneFrom (some (s.getD (n - 1) c₀)) (s.drop n) := by
  intro n
  induction n with
  | zero => intro _ _ _ _ h; omega
  | succ n ih =>
    intro prev s c₀ hs _
    cases s with
    | nil => simp [noPhoneFrom]
    | cons c r =>
      cases n with
      | zero => exact hs.2
      | succ n0 =>
        have := ih (some c) r c₀ hs.2 (by omega)
        simpa using this

/-- Appending a digit-free block in front cannot create phone matches. -/
theorem noPhoneFrom_append_nodigit : ∀ (P : List Char) (prev : Option Char) (X : List Char),
    (∀ c ∈ P, c.isDigit = false) → (∀ pc, noPhoneFrom pc X) → noPhoneFrom prev (P ++ X) := by
  intro P
  induction P with
  | nil => intro prev X _ hX; exact hX prev
  | cons c P' ih =>
    intro prev X hP hX
    refine ⟨phoneAt_head_nodigit prev _ ?_, ih (some c) X (fun d hd => hP d (by simp [hd])) hX⟩
    show ((c :: (P' ++ X)).getD 0 ' ').isDigit = false
    exact hP c (by simp)

end GitMirror

namespace GitMirror

/-- Replacing the text after a non-word cut by a placeholder cannot create a
phone match at the head: the bracket breaks the span, ends it exactly at a
non-word character that contradicts the cut evidence, or lies beyond the
window. -/
theorem phoneAt_no_new (prev : Option Char) (c : Char) (r : List Char) (k : Nat)
    (rest : List Char) (hk : k ≤ r.length)
    (hm : phoneAt prev (c :: r) = none)
    (hword : wordChar ((c :: r).getD k ' ') = false) :
    phoneAt prev ((c :: r.take k) ++ '<' :: rest) = none := by
  cases hs : phoneAt prev ((c :: r.take k) ++ '<' :: rest) with
  | none => rfl
  | some n'
  =>
  exfalso
  have hxlen : (c :: r.take k).length = k + 1 := by
    simp only [List.length_cons, List.length_take]
    omega
  obtain ⟨-, -, p0, p1, p2, p3, p4, p5, p6, p7, p8, p9, p10, p11, p12⟩ :=
    (phoneAt_some_iff _ _ _).mp hs
  rcases Nat.lt_or_ge k 12 with hk12 | hk12
  · have hlt : ((c :: r.take k) ++ '<' :: rest).getD (k + 1) ' ' = '<' := by
      have := getD_append_first (c :: r.take k) ('<' :: rest) ' '
      rw [hxlen] at this
      exact this
    rcases Nat.lt_or_ge k 11 with hk11 | hk11
    · interval_cases k
      · rw [hlt] at p1
        exact absurd p1 (by decide)
      · rw [hlt] at p2
        exact absurd p2 (by decide)
      · rw [hlt] at p3
        exact absurd p3 (by decide)
      · rw [hlt] at p4
        exact absurd p4 (by decide)
      · rw [hlt] at p5
        exact absurd p5 (by decide)
      · rw [hlt] at p6
        exact absurd p6 (by decide)
      · rw [hlt] at p7
        exact absurd p7 (by decide)
      · rw [hlt] at p8
        exact absurd p8 (by decide)
      · rw [hlt] at p9
        exact absurd p9 (by decide)
      · rw [hlt] at p10
        exact absurd p10 (by decide)
      · rw [hlt] at p11
        exact absurd p11 (by decide)
    · have hke : k = 11 := by omega
      subst hke
      have h11 : ((c :: r.take 11) ++ '<' :: rest).getD 11 ' ' = (c :: r).getD 11 ' ' := by
        rw [getD_append_left _ _ 11 (by rw [hxlen]; omega)]
        show (c :: r.take 11).getD 11 ' ' = (c :: r).getD 11 ' '
        have h10 : (r.take 11).getD 10 ' ' = r.getD 10 ' ' := getD_take r 11 10 (by omega)
        simp only [List.getD_cons_succ]
        exact h10
      rw [h11] at p11
      exact absurd (digit_word _ p11) (by rw [hword]; simp)
  · have hcong := phoneAt_append_congr prev (c :: r.take k) ('<' :: rest) (r.drop k)
      (by rw [hxlen]; omega)
    rw [hs] at hcong
    have hjoin : (c :: r.take k) ++ r.drop k = c :: r := by
      simp [List.take_append_drop]
    rw [hjoin, hm] at hcong
    exact absurd hcong (by simp)

/-- The head of a phone-scan output is a bracket or the original head. -/
theorem goP_head (f : Nat) (p : Option Char) (s : List Char) :
    (goP f p s).getD 0 ' ' = '<' ∨ (goP f p s).getD 0 ' ' = s.getD 0 ' ' := by
  cases f with
  | zero => exact Or.inr rfl
  | succ f =>
    cases s with
    | nil => exact Or.inr rfl
    | cons c r =>
      cases hm : phoneAt p (c :: r) with
      | some n =>
        refine Or.inl ?_
        simp [goP, hm, phP]
      | none =>
        refine Or.inr ?_
        simp [goP, hm]

/-- The head of an IP-scan output is a bracket or the original head. -/
theorem goI_head (f : Nat) (p : Option Char) (s : List Char) :
    (goI f p s).getD 0 ' ' = '<' ∨ (goI f p s).getD 0 ' ' = s.getD 0 ' ' := by
  cases f with
  | zero => exact Or.inr rfl
  | succ f =>
    cases s with
    | nil => exact Or.inr rfl
    | cons c r =>
      cases hm : ipAt p (c :: r) with
      | some n =>
        refine Or.inl ?_
        simp [goI, hm, phI]
      | none =>
        refine Or.inr ?_
        simp [goI, hm]

/-- Output of the phone scan admits no phone match at any position. -/
theorem goP_noPhone (f : Nat) : ∀ prev s, s.length ≤ f → noPhoneFrom prev (goP f prev s) := by
  induction f with
  | zero =>
    intro prev s hf
    have : s = [] := List.eq_nil_of_length_eq_zero (Nat.le_zero.mp hf)
    subst this
    exact trivial
  | succ f ih =>
    intro prev s hf
    cases s with
    | nil => exact trivial
    | cons c r =>
      cases hm : phoneAt prev (c :: r) with
      | some n =>
        have h12 := phoneAt_some_eq _ _ _ hm
        subst h12
        have hshape : goP (f + 1) prev (c :: r)
            = phP ++ goP f (some ((c :: r).getD 11 c)) ((c :: r).drop 12) := by
          simp [goP, hm]
        rw [hshape]
        have hlen : ((c :: r).drop 12).length ≤ f := by
          simp only [List.length_drop, List.length_cons]
          simp only [List.length_cons] at hf
          omega
        have hXbase := ih (some ((c :: r).getD 11 c)) ((c :: r).drop 12) hlen
        have htail : wordChar ((c :: r).getD 12 ' ') = false :=
          ((phoneAt_some_iff _ _ _).mp hm).2.2.2.2.2.2.2.2.2.2.2.2.2.2
        have hd : ((goP f (some ((c :: r).getD 11 c)) ((c :: r).drop 12)).getD 0 ' ').isDigit
            = false := by
          rcases goP_head f (some ((c :: r).getD 11 c)) ((c :: r).drop 12) with hh | hh
          · rw [hh]
            decide
          · rw [hh, getD_drop]
            by_cases hdig : ((c :: r).getD (12 + 0) ' ').isDigit = true
            · exact absurd (digit_word _ hdig) (by simpa using htail)
            · simpa using hdig
        exact noPhoneFrom_append_nodigit phP prev _ (by decide)
          (fun pc => noPhoneFrom_change_prev _ _ pc hXbase (phoneAt_head_nodigit pc _ hd))
      | none =>
        have hshape : goP (f + 1) prev (c :: r) = c :: goP f (some c) r := by
          simp [goP, hm]
        rw [hshape]
        refine ⟨?_, ih (some c) r (by simp only [List.length_cons] at hf; omega)⟩
        rcases goP_decomp f (some c) r with he | ⟨k, rest, m, hkk, he, hmat⟩
        · rw [he]
          exact hm
        · rw [he]
          show phoneAt prev ((c :: r.take k) ++ '<' :: rest) = none
        
          have hb := ((phoneAt_some_iff _ _ _).mp hmat).2.1
          have hword : wordChar ((c :: r).getD k ' ') = false := by
            cases k with
            | zero =>
              simpa [bdryL, Bool.not_eq_true'] using hb
            | succ k0 =>
              simpa [bdryL, Bool.not_eq_true'] using hb
          exact phoneAt_no_new prev c r k rest hkk hm hword

end GitMirror

namespace GitMirror

/-! ### IP characterization helpers -/

/-- A `takeWhile` that stops strictly inside the list stops at a failing
character. -/
theorem takeWhile_stop (f : Char → Bool) (l : List Char)
    (h : (l.takeWhile f).length < l.length) :
    f (l.getD (l.takeWhile f).length ' ') = false := by
  induction l with
  | nil => simp at h
  | cons c r ih =>
    by_cases hc : f c = true
    · rw [List.takeWhile_cons, hc, if_pos rfl] at h ⊢
      simp only [List.length_cons] at h ⊢
      rw [List.getD_cons_succ]
      exact ih (by omega)
    · rw [List.takeWhile_cons, if_neg hc]
      simp only [List.length_nil, List.getD_cons_zero]
      exact Bool.eq_false_iff.mpr hc

/-- Construct the length of a maximal run from positional evidence: `g`
in-range characters that satisfy the predicate, stopped by the end of the
list or a failing character. -/
theorem takeWhile_len_of (f : Char → Bool) (l : List Char) (g : Nat)
    (hg : g ≤ l.length)
    (hall : ∀ j, j < g → f (l.getD j ' ') = true)
    (hstop : g = l.length ∨ f (l.getD g ' ') = false) :
    (l.takeWhile f).length = g := by
  have htk : (l.take g).takeWhile f = l.take g := by
    apply takeWhile_all
    intro c hc
    obtain ⟨j, hj, he⟩ := List.mem_iff_getElem.mp hc
    have hjg : j < g := by
      have := hj
      simp only [List.length_take] at this
      omega
    have hjl : j < l.length := by omega
    have hcj : c = l.getD j ' ' := by
      rw [List.getD_eq_getElem l ' ' hjl, ← @List.getElem_take _ l g j hj, he]
    rw [hcj]
    exact hall j hjg
  conv_lhs => rw [← List.take_append_drop g l]
  rw [List.takeWhile_append]
  rw [htk]
  have hlt : (l.take g).length = g := by
    simp only [List.length_take]
    omega
  rw [if_pos rfl]
  rcases hstop with he | hf
  · have hd : l.drop g = [] := by
      rw [List.drop_eq_nil_iff]
      omega
    rw [hd]
    simp [hlt]
  · have hd : (l.drop g).takeWhile f = [] := by
      cases hd : l.drop g with
      | nil => rfl
      | cons c w =>
        have hc : c = l.getD g ' ' := by
          have h0 : (l.drop g).getD 0 ' ' = c := by rw [hd]; rfl
          rw [getD_drop] at h0
          simpa using h0.symm
        rw [List.takeWhile_cons, hc, hf]
        simp
    rw [hd]
    simp [hlt]

/-- A character read as a dot is inside the list. -/
theorem getD_dot_lt (l : List Char) (j : Nat) (h : l.getD j ' ' = '.') : j < l.length := by
  by_contra hc
  rw [List.getD_eq_default l ' ' (by omega)] at h
  exact absurd h (by decide)

end GitMirror

namespace GitMirror

/-! ### layered characterization of the IP matcher -/

/-- Structural characterization of `ip4`. -/
theorem ip4_some_iff (acc : Nat) (t4 : List Char) (n : Nat) :
    ip4 acc t4 = some n ↔
      (1 ≤ (t4.takeWhile Char.isDigit).length ∧ (t4.takeWhile Char.isDigit).length ≤ 3 ∧
       bdryR (t4.drop (t4.takeWhile Char.isDigit).length) = true ∧
       n = acc + (t4.takeWhile Char.isDigit).length) := by
  constructor
  · intro h
    simp only [ip4] at h
    split at h
    · exact absurd h (by simp)
    rename_i hq
    split at h
    · rename_i hb
      simp only [Option.some.injEq] at h
      simp only [Bool.or_eq_true, decide_eq_true_eq, not_or, not_lt] at hq
      exact ⟨by omega, by omega, hb, h.symm⟩
    · exact absurd h (by simp)
  · rintro ⟨h1, h3, hb, hn⟩
    simp only [ip4]
    rw [if_neg (by simp only [Bool.or_eq_true, decide_eq_true_eq, not_or, not_lt]; omega),
      if_pos hb, hn]

/-- Structural characterization of `ip3`. -/
theorem ip3_some_iff (acc : Nat) (t3 : List Char) (n : Nat) :
    ip3 acc t3 = some n ↔
      (1 ≤ (t3.takeWhile Char.isDigit).length ∧ (t3.takeWhile Char.isDigit).length ≤ 3 ∧
       ∃ t4, t3.drop (t3.takeWhile Char.isDigit).length = '.' :: t4 ∧
         ip4 (acc + (t3.takeWhile Char.isDigit).length + 1) t4 = some n) := by
  constructor
  · intro h
    simp only [ip3] at h
    split at h
    · exact absurd h (by simp)
    rename_i hq
    simp only [Bool.or_eq_true, decide_eq_true_eq, not_or, not_lt] at hq
    split at h
    · rename_i t4 heq
      exact ⟨by omega, by omega, t4, heq, h⟩
    · exact absurd h (by simp)
  · rintro ⟨h1, h3, t4, heq, h4⟩
    simp only [ip3]
    rw [if_neg (by simp only [Bool.or_eq_true, decide_eq_true_eq, not_or, not_lt]; omega), heq]
    exact h4

/-- Structural characterization of `ip2`. -/
theorem ip2_some_iff (acc : Nat) (t2 : List Char) (n : Nat) :
    ip2 acc t2 = some n ↔
      (1 ≤ (t2.takeWhile Char.isDigit).length ∧ (t2.takeWhile Char.isDigit).length ≤ 3 ∧
       ∃ t3, t2.drop (t2.takeWhile Char.isDigit).length = '.' :: t3 ∧
         ip3 (acc + (t2.takeWhile Char.isDigit).length + 1) t3 = some n) := by
  constructor
  · intro h
    simp only [ip2] at h
    split at h
    · exact absurd h (by simp)
    rename_i hq
    simp only [Bool.or_eq_true, decide_eq_true_eq, not_or, not_lt] at hq
    split at h
    · rename_i t3 heq
      exact ⟨by omega, by omega, t3, heq, h⟩
    · exact absurd h (by simp)
  · rintro ⟨h1, h3, t3, heq, h4⟩
    simp only [ip2]
    rw [if_neg (by simp only [Bool.or_eq_true, decide_eq_true_eq, not_or, not_lt]; omega), heq]
    exact h4

/-- Structural characterization of `ipAt`. -/
theorem ipAt_some_iff_raw (prev : Option Char) (s : List Char) (n : Nat) :
    ipAt prev s = some n ↔
      (bdryL prev = true ∧ allowLit.isPrefixOf s = false ∧
       1 ≤ (s.takeWhile Char.isDigit).length ∧ (s.takeWhile Char.isDigit).length ≤ 3 ∧
       ∃ t2, s.drop (s.takeWhile Char.isDigit).length = '.' :: t2 ∧
         ip2 ((s.takeWhile Char.isDigit).length + 1) t2 = some n) := by
  constructor
  · intro h
    simp only [ipAt] at h
    split at h
    · exact absurd h (by simp)
    rename_i hbl0
    split at h
    · exact absurd h (by simp)
    rename_i hpre0
    split at h
    · exact absurd h (by simp)
    rename_i hq
    simp only [Bool.or_eq_true, decide_eq_true_eq, not_or, not_lt] at hq
    split at h
    · rename_i t2 heq
      refine ⟨?_, ?_, by omega, by omega, t2, heq, h⟩
      · simpa using hbl0
      · exact Bool.eq_false_iff.mpr hpre0
    · exact absurd h (by simp)
  · rintro ⟨hbl, hpre, h1, h3, t2, heq, h4⟩
    simp only [ipAt]
    rw [hbl]
    rw [if_neg (by simp)]
    rw [if_neg (by rw [hpre]; simp)]
    rw [if_neg (by simp only [Bool.or_eq_true, decide_eq_true_eq, not_or, not_lt]; omega), heq]
    exact h4

end GitMirror

namespace GitMirror

/-- The tail of a cons produced by two nested drops is a drop of the whole. -/
theorem drop_cons_of_drop (s u : List Char) (a b : Nat) (c : Char)
    (h : (s.drop a).drop b = c :: u) : u = s.drop (a + b + 1) := by
  have e : u = ((s.drop a).drop b).drop 1 := by rw [h]; simp
  rw [List.drop_drop, List.drop_drop] at e
  rw [show a + (b + 1) = a + b + 1 from by omega] at e
  exact e

/-- Positional characterization of an IP match: a left boundary, the negative
lookahead, four digit runs of one to three characters separated by dots, and a
right boundary, all read through `getD`. -/
theorem ipAt_some_iff (prev : Option Char) (s : List Char) (n : Nat) :
    ipAt prev s = some n ↔
      (bdryL prev = true ∧ allowLit.isPrefixOf s = false ∧
       ∃ g1 g2 g3 g4,
         1 ≤ g1 ∧ g1 ≤ 3 ∧ 1 ≤ g2 ∧ g2 ≤ 3 ∧ 1 ≤ g3 ∧ g3 ≤ 3 ∧ 1 ≤ g4 ∧ g4 ≤ 3 ∧
         n = g1 + 1 + g2 + 1 + g3 + 1 + g4 ∧
         n ≤ s.length ∧
         (∀ j, j < g1 → (s.getD j ' ').isDigit = true) ∧
         s.getD g1 ' ' = '.' ∧
         (∀ j, j < g2 → (s.getD (g1 + 1 + j) ' ').isDigit = true) ∧
         s.getD (g1 + 1 + g2) ' ' = '.' ∧
         (∀ j, j < g3 → (s.getD (g1 + 1 + g2 + 1 + j) ' ').isDigit = true) ∧
         s.getD (g1 + 1 + g2 + 1 + g3) ' ' = '.' ∧
         (∀ j, j < g4 → (s.getD (g1 + 1 + g2 + 1 + g3 + 1 + j) ' ').isDigit = true) ∧
         wordChar (s.getD n ' ') = false) := by
  constructor
  · intro h
    obtain ⟨hbl, hpre, h11, h13, t2, heq1, h2⟩ := (ipAt_some_iff_raw prev s n).mp h
    generalize hG1 : (s.takeWhile Char.isDigit).length = G1 at *
    have ht2 : t2 = s.drop (G1 + 1) := by
      have e : s.drop (G1 + 1) = ('.' :: t2).drop 1 := by
        rw [← heq1, List.drop_drop]
      simpa using e.symm
    subst ht2
    obtain ⟨h21, h23, t3, heq2, h3⟩ := (ip2_some_iff _ _ _).mp h2
    generalize hG2 : ((s.drop (G1 + 1)).takeWhile Char.isDigit).length = G2 at *
    have ht3 : t3 = s.drop (G1 + 1 + G2 + 1) :=
      drop_cons_of_drop s t3 (G1 + 1) G2 '.' heq2
    subst ht3
    obtain ⟨h31, h33, t4, heq3, h4⟩ := (ip3_some_iff _ _ _).mp h3
    generalize hG3 : ((s.drop (G1 + 1 + G2 + 1)).takeWhile Char.isDigit).length = G3 at *
    have ht4 : t4 = s.drop (G1 + 1 + G2 + 1 + G3 + 1) :=
      drop_cons_of_drop s t4 (G1 + 1 + G2 + 1) G3 '.' heq3
    subst ht4
    obtain ⟨h41, h43, hbr, hn⟩ := (ip4_some_iff _ _ _).mp h4
    generalize hG4 : ((s.drop (G1 + 1 + G2 + 1 + G3 + 1)).takeWhile Char.isDigit).length = G4 at *
    refine ⟨hbl, hpre, G1, G2, G3, G4, h11, h13, h21, h23, h31, h33, h41, h43, hn, ?_, ?_,
      ?_, ?_, ?_, ?_, ?_, ?_, ?_⟩
    · have hle : G4 ≤ (s.drop (G1 + 1 + G2 + 1 + G3 + 1)).length := by
        rw [← hG4]
        exact (List.takeWhile_sublist _).length_le
      rw [List.length_drop] at hle
      omega
    · intro j hj
      rw [← hG1] at hj
      exact takeWhile_prop_getD Char.isDigit s j hj
    · have e : (s.drop G1).getD 0 ' ' = '.' := by rw [heq1]; rfl
      rw [getD_drop] at e
      simpa using e
    · intro j hj
      rw [← hG2] at hj
      have e := takeWhile_prop_getD Char.isDigit (s.drop (G1 + 1)) j hj
      rwa [getD_drop] at e
    · have e : ((s.drop (G1 + 1)).drop G2).getD 0 ' ' = '.' := by rw [heq2]; rfl
      rw [getD_drop, getD_drop] at e
      simpa using e
    · intro j hj
      rw [← hG3] at hj
      have e := takeWhile_prop_getD Char.isDigit (s.drop (G1 + 1 + G2 + 1)) j hj
      rwa [getD_drop] at e
    · have e : ((s.drop (G1 + 1 + G2 + 1)).drop G3).getD 0 ' ' = '.' := by rw [heq3]; rfl
      rw [getD_drop, getD_drop] at e
      simpa using e
    · intro j hj
      rw [← hG4] at hj
      have e := takeWhile_prop_getD Char.isDigit (s.drop (G1 + 1 + G2 + 1 + G3 + 1)) j hj
      rwa [getD_drop] at e
    · rw [bdryR_getD] at hbr
      rw [getD_drop] at hbr
      rw [hn]
      simpa using hbr
  · rintro ⟨hbl, hpre, g1, g2, g3, g4, b11, b13, b21, b23, b31, b33, b41, b43, hn, hnle,
      hd1, hdot1, hd2, hdot2, hd3, hdot3, hd4, hw⟩
    have e1 : (s.takeWhile Char.isDigit).length = g1 :=
      takeWhile_len_of Char.isDigit s g1 (by omega) hd1 (Or.inr (by rw [hdot1]; decide))
    have hlt1 : g1 < s.length := by omega
    have e2 : ((s.drop (g1 + 1)).takeWhile Char.isDigit).length = g2 := by
      refine takeWhile_len_of Char.isDigit _ g2 (by rw [List.length_drop]; omega) ?_ (Or.inr ?_)
      · intro j hj
        rw [getD_drop]
        exact hd2 j hj
      · rw [getD_drop, hdot2]
        decide
    have e3 : ((s.drop (g1 + 1 + g2 + 1)).takeWhile Char.isDigit).length = g3 := by
      refine takeWhile_len_of Char.isDigit _ g3 (by rw [List.length_drop]; omega) ?_ (Or.inr ?_)
      · intro j hj
        rw [getD_drop]
        exact hd3 j hj
      · rw [getD_drop, hdot3]
        decide
    have e4 : ((s.drop (g1 + 1 + g2 + 1 + g3 + 1)).takeWhile Char.isDigit).length = g4 := by
      refine takeWhile_len_of Char.isDigit _ g4 (by rw [List.length_drop]; omega) ?_ (Or.inr ?_)
      · intro j hj
        rw [getD_drop]
        exact hd4 j hj
      · rw [getD_drop, ← hn]
        cases hd : (s.getD n ' ').isDigit with
        | false => rfl
        | true => exact absurd (digit_word _ hd) (by rw [hw]; simp)
    apply (ipAt_some_iff_raw prev s n).mpr
    refine ⟨hbl, hpre, by rw [e1]; omega, by rw [e1]; omega, s.drop (g1 + 1), ?_, ?_⟩
    · rw [e1, List.drop_eq_getElem_cons hlt1]
      congr 1
      rw [← List.getD_eq_getElem s ' ' hlt1]
      exact hdot1
    · rw [e1]
      apply (ip2_some_iff _ _ _).mpr
      refine ⟨by rw [e2]; omega, by rw [e2]; omega, s.drop (g1 + 1 + g2 + 1), ?_, ?_⟩
      · rw [e2, List.drop_drop]
        have hlt2 : g1 + 1 + g2 < s.length := by omega
        rw [List.drop_eq_getElem_cons hlt2]
        congr 1
        rw [← List.getD_eq_getElem s ' ' hlt2]
        exact hdot2
      · rw [e2]
        apply (ip3_some_iff _ _ _).mpr
        refine ⟨by rw [e3]; omega, by rw [e3]; omega, s.drop (g1 + 1 + g2 + 1 + g3 + 1), ?_, ?_⟩
        · rw [e3, List.drop_drop]
          have hlt3 : g1 + 1 + g2 + 1 + g3 < s.length := by omega
          rw [List.drop_eq_getElem_cons hlt3]
          congr 1
          rw [← List.getD_eq_getElem s ' ' hlt3]
          exact hdot3
        · rw [e3]
          apply (ip4_some_iff _ _ _).mpr
          refine ⟨by rw [e4]; omega, by rw [e4]; omega, ?_, by rw [e4]; exact hn⟩
          rw [e4, bdryR_getD, getD_drop, ← hn, hw]
          rfl

end GitMirror

namespace GitMirror

/-- A non-digit head blocks an IP match regardless of context. -/
theorem ipAt_head_nodigit (prev : Option Char) (s : List Char)
    (h : (s.getD 0 ' ').isDigit = false) : ipAt prev s = none := by
  have hg : (s.takeWhile Char.isDigit).length = 0 := by
    cases s with
    | nil => rfl
    | cons c r =>
      rw [List.takeWhile_cons, if_neg]
      · rfl
      · simp only [List.getD_cons_zero] at h
        simp [h]
  by_cases hb : (!bdryL prev) = true
  · simp [ipAt, hb]
  · by_cases hp : allowLit.isPrefixOf s = true
    · simp [ipAt, hb, hp]
    · simp [ipAt, hb, hp, hg]

/-- A changed left context cannot create an IP match when the head already
fails. -/
theorem noIPFrom_change_prev (X : List Char) (p1 p2 : Option Char)
    (h1 : noIPFrom p1 X) (h2 : ipAt p2 X = none) : noIPFrom p2 X := by
  cases X with
  | nil => exact trivial
  | cons c r => exact ⟨h2, h1.2⟩

/-- `noIPFrom` is closed under drops, with the character before the cut as
new context. -/
theorem noIPFrom_drop : ∀ (n : Nat) (prev : Option Char) (s : List Char) (c₀ : Char),
    noIPFrom prev s → 1 ≤ n → noIPFrom (some (s.getD (n - 1) c₀)) (s.drop n) := by
  intro n
  induction n with
  | zero => intro _ _ _ _ h; omega
  | succ n ih =>
    intro prev s c₀ hs _
    cases s with
    | nil => simp [noIPFrom]
    | cons c r =>
      cases n with
      | zero => exact hs.2
      | succ n0 =>
        have := ih (some c) r c₀ hs.2 (by omega)
        simpa using this

/-- Appending a digit-free block in front cannot create IP matches. -/
theorem noIPFrom_append_nodigit : ∀ (P : List Char) (prev : Option Char) (X : List Char),
    (∀ c ∈ P, c.isDigit = false) → (∀ pc, noIPFrom pc X) → noIPFrom prev (P ++ X) := by
  intro P
  induction P with
  | nil => intro prev X _ hX; exact hX prev
  | cons c P' ih =>
    intro prev X hP hX
    refine ⟨ipAt_head_nodigit prev _ ?_, ih (some c) X (fun d hd => hP d (by simp [hd])) hX⟩
    show ((c :: (P' ++ X)).getD 0 ' ').isDigit = false
    exact hP c (by simp)

/-- The character after an IP match is a word boundary. -/
theorem ipAt_trailing (prev : Option Char) (s : List Char) (n : Nat)
    (h : ipAt prev s = some n) : wordChar (s.getD n ' ') = false := by
  obtain ⟨-, -, g1, g2, g3, g4, -, -, -, -, -, -, -, -, -, -, -, -, -, -, -, -, -, hw⟩ :=
    (ipAt_some_iff prev s n).mp h
  exact hw

/-- An IP match needs a left word boundary. -/
theorem ipAt_bdryL (prev : Option Char) (s : List Char) (n : Nat)
    (h : ipAt prev s = some n) : bdryL prev = true :=
  ((ipAt_some_iff prev s n).mp h).1

/-- The IP scan preserves the absence of phone matches. -/
theorem goI_noPhone (f : Nat) : ∀ prev s, s.length ≤ f → noPhoneFrom prev s →
    noPhoneFrom prev (goI f prev s) := by
  induction f with
  | zero =>
    intro prev s hf _
    have : s = [] := List.eq_nil_of_length_eq_zero (Nat.le_zero.mp hf)
    subst this
    exact trivial
  | succ f ih =>
    intro prev s hf hs
    cases s with
    | nil => exact trivial
    | cons c r =>
      cases hm : ipAt prev (c :: r) with
      | some n =>
        have hn1 := ipAt_pos _ _ _ hm
        have hshape : goI (f + 1) prev (c :: r)
            = phI ++ goI f (some ((c :: r).getD (n - 1) c)) ((c :: r).drop n) := by
          simp [goI, hm]
        rw [hshape]
        have hlen : ((c :: r).drop n).length ≤ f := by
          simp only [List.length_drop, List.length_cons]
          simp only [List.length_cons] at hf
          omega
        have hbase : noPhoneFrom (some ((c :: r).getD (n - 1) c)) ((c :: r).drop n) :=
          noPhoneFrom_drop n prev (c :: r) c hs hn1
        have hX := ih _ _ hlen hbase
        have htail : wordChar ((c :: r).getD n ' ') = false := ipAt_trailing _ _ _ hm
        have hd : ((goI f (some ((c :: r).getD (n - 1) c)) ((c :: r).drop n)).getD 0 ' ').isDigit
            = false := by
          rcases goI_head f (some ((c :: r).getD (n - 1) c)) ((c :: r).drop n) with hh | hh
          · rw [hh]
            decide
          · rw [hh, getD_drop]
            by_cases hdig : ((c :: r).getD (n + 0) ' ').isDigit = true
            · exact absurd (digit_word _ hdig) (by simpa using htail)
            · simpa using hdig
        exact noPhoneFrom_append_nodigit phI prev _ (by decide)
          (fun pc => noPhoneFrom_change_prev _ _ pc hX (phoneAt_head_nodigit pc _ hd))
      | none =>
        have hshape : goI (f + 1) prev (c :: r) = c :: goI f (some c) r := by
          simp [goI, hm]
        rw [hshape]
        refine ⟨?_, ih (some c) r (by simp only [List.length_cons] at hf; omega) hs.2⟩
        rcases goI_decomp f (some c) r with he | ⟨k, rest, m, hkk, he, hmat⟩
        · rw [he]
          exact hs.1
        · rw [he]
          show phoneAt prev ((c :: r.take k) ++ '<' :: rest) = none
          have hb := ipAt_bdryL _ _ _ hmat
          have hword : wordChar ((c :: r).getD k ' ') = false := by
            cases k with
            | zero =>
              simpa [bdryL, Bool.not_eq_true'] using hb
            | succ k0 =>
              simpa [bdryL, Bool.not_eq_true'] using hb
          exact phoneAt_no_new prev c r k rest hkk hs.1 hword

end GitMirror

namespace GitMirror

/-- Every position of an IP match window holds a digit or a dot. -/
theorem ip_span_aux (x : List Char) (g1 g2 g3 g4 j : Nat)
    (hd1 : ∀ i, i < g1 → (x.getD i ' ').isDigit = true)
    (hdot1 : x.getD g1 ' ' = '.')
    (hd2 : ∀ i, i < g2 → (x.getD (g1 + 1 + i) ' ').isDigit = true)
    (hdot2 : x.getD (g1 + 1 + g2) ' ' = '.')
    (hd3 : ∀ i, i < g3 → (x.getD (g1 + 1 + g2 + 1 + i) ' ').isDigit = true)
    (hdot3 : x.getD (g1 + 1 + g2 + 1 + g3) ' ' = '.')
    (hd4 : ∀ i, i < g4 → (x.getD (g1 + 1 + g2 + 1 + g3 + 1 + i) ' ').isDigit = true)
    (hj : j < g1 + 1 + g2 + 1 + g3 + 1 + g4) :
    (x.getD j ' ').isDigit = true ∨ x.getD j ' ' = '.' := by
  rcases Nat.lt_or_ge j g1 with h | h
  · exact Or.inl (hd1 j h)
  rcases Nat.lt_or_ge j (g1 + 1) with h1 | h1
  · have hje : j = g1 := by omega
    subst hje
    exact Or.inr hdot1
  rcases Nat.lt_or_ge j (g1 + 1 + g2) with h2 | h2
  · refine Or.inl ?_
    have he : g1 + 1 + (j - (g1 + 1)) = j := by omega
    rw [← he]
    exact hd2 (j - (g1 + 1)) (by omega)
  rcases Nat.lt_or_ge j (g1 + 1 + g2 + 1) with h3 | h3
  · have hje : j = g1 + 1 + g2 := by omega
    subst hje
    exact Or.inr hdot2
  rcases Nat.lt_or_ge j (g1 + 1 + g2 + 1 + g3) with h4 | h4
  · refine Or.inl ?_
    have he : g1 + 1 + g2 + 1 + (j - (g1 + 1 + g2 + 1)) = j := by omega
    rw [← he]
    exact hd3 (j - (g1 + 1 + g2 + 1)) (by omega)
  rcases Nat.lt_or_ge j (g1 + 1 + g2 + 1 + g3 + 1) with h5 | h5
  · have hje : j = g1 + 1 + g2 + 1 + g3 := by omega
    subst hje
    exact Or.inr hdot3
  · refine Or.inl ?_
    have he : g1 + 1 + g2 + 1 + g3 + 1 + (j - (g1 + 1 + g2 + 1 + g3 + 1)) = j := by omega
    rw [← he]
    exact hd4 (j - (g1 + 1 + g2 + 1 + g3 + 1)) (by omega)

/-- Replacing the text after a non-word cut by a placeholder cannot create an
IP match at the head: the bracket breaks the dotted span, ends it exactly at
a non-word character that contradicts the cut evidence, or the match lies in
the copied prefix and transfers back to the original text (where either it
contradicts the scan result, or the original carried the allow-listed literal,
whose digits and boundary make the new match impossible). -/
theorem ipAt_no_new (prev : Option Char) (c : Char) (r : List Char) (k : Nat)
    (rest : List Char) (hk : k ≤ r.length)
    (hm : ipAt prev (c :: r) = none)
    (hword : wordChar ((c :: r).getD k ' ') = false) :
    ipAt prev ((c :: r.take k) ++ '<' :: rest) = none := by
  cases hs : ipAt prev ((c :: r.take k) ++ '<' :: rest) with
  | none => rfl
  | some n'
  =>
  exfalso
  obtain ⟨hbl, hpren, g1, g2, g3, g4, b11, b13, b21, b23, b31, b33, b41, b43, hn, hnle,
    hd1, hdot1, hd2, hdot2, hd3, hdot3, hd4, hw⟩ := (ipAt_some_iff _ _ _).mp hs
  have hxlen : (c :: r.take k).length = k + 1 := by
    simp only [List.length_cons, List.length_take]
    omega
  have hpos : ∀ j, j ≤ k → ((c :: r.take k) ++ '<' :: rest).getD j ' '
      = (c :: r).getD j ' ' := by
    intro j hj
    rw [getD_append_left _ _ j (by omega)]
    cases j with
    | zero => rfl
    | succ j0 =>
      simp only [List.getD_cons_succ]
      exact getD_take r k j0 (by omega)
  have hlt : ((c :: r.take k) ++ '<' :: rest).getD (k + 1) ' ' = '<' := by
    have := getD_append_first (c :: r.take k) ('<' :: rest) ' '
    rw [hxlen] at this
    exact this
  rcases Nat.lt_or_ge k n' with hkn | hkn
  · rcases Nat.lt_or_ge (k + 1) n' with hkn2 | hkn2
    · have hsp := ip_span_aux _ g1 g2 g3 g4 (k + 1)
        hd1 hdot1 hd2 hdot2 hd3 hdot3 hd4 (by omega)
      rw [hlt] at hsp
      rcases hsp with h | h
      · exact absurd h (by decide)
      · exact absurd h (by decide)
    · have hke : n' = k + 1 := by omega
      have he : g1 + 1 + g2 + 1 + g3 + 1 + (g4 - 1) = k := by omega
      have hdig := hd4 (g4 - 1) (by omega)
      rw [he] at hdig
      rw [hpos k (le_refl k)] at hdig
      exact absurd (digit_word _ hdig) (by rw [hword]; simp)
  · by_cases hA : allowLit.isPrefixOf (c :: r) = true
    · obtain ⟨t, ht⟩ := List.isPrefixOf_iff_prefix.mp hA
      have hchar : ∀ j, j < 15 → j ≤ k → ((c :: r.take k) ++ '<' :: rest).getD j ' '
          = allowLit.getD j ' ' := by
        intro j hj15 hjk
        rw [hpos j hjk, ← ht,
          getD_append_left _ _ j (by rw [show allowLit.length = 15 from rfl]; omega)]
      have hg1 : g1 = 3 := by
        by_contra hne
        have hd := hdot1
        rw [hchar g1 (by omega) (by omega)] at hd
        interval_cases g1
        · exact absurd hd (by decide)
        · exact absurd hd (by decide)
        · exact hne rfl
      have hg2 : g2 = 3 := by
        by_contra hne
        have hd := hdot2
        rw [hg1] at hd
        rw [hchar (3 + 1 + g2) (by omega) (by omega)] at hd
        interval_cases g2
        · exact absurd hd (by decide)
        · exact absurd hd (by decide)
        · exact hne rfl
      have hg3 : g3 = 3 := by
        by_contra hne
        have hd := hdot3
        rw [hg1, hg2] at hd
        rw [hchar (3 + 1 + 3 + 1 + g3) (by omega) (by omega)] at hd
        interval_cases g3
        · exact absurd hd (by decide)
        · exact absurd hd (by decide)
        · exact hne rfl
      rcases Nat.lt_or_ge n' 15 with h15 | h15
      · have hwn := hw
        rw [hchar n' (by omega) (by omega)] at hwn
        have hn14 : n' = 13 ∨ n' = 14 := by omega
        rcases hn14 with he | he <;> rw [he] at hwn <;> exact absurd hwn (by decide)
      · have he15 : n' = 15 := by omega
        have htake : allowLit = (c :: r).take 15 := by
          have hq := List.prefix_iff_eq_take.mp ⟨t, ht⟩
          rw [show allowLit.length = 15 from rfl] at hq
          exact hq
        have hpt : (c :: r.take k).take 15 = allowLit := by
          rw [show (15 : Nat) = 14 + 1 from rfl, List.take_succ_cons, List.take_take,
            min_eq_left (by omega : (14 : Nat) ≤ k)]
          rw [htake, show (15 : Nat) = 14 + 1 from rfl, List.take_succ_cons]
        have hcr : c :: r.take k = allowLit ++ (c :: r.take k).drop 15 := by
          rw [← hpt]
          exact (List.take_append_drop 15 _).symm
        have hpre15 : allowLit.isPrefixOf ((c :: r.take k) ++ '<' :: rest) = true := by
          apply List.isPrefixOf_iff_prefix.mpr
          refine ⟨(c :: r.take k).drop 15 ++ '<' :: rest, ?_⟩
          rw [← List.append_assoc, ← hcr]
        rw [hpren] at hpre15
        exact absurd hpre15 (by simp)
    · have hAf : allowLit.isPrefixOf (c :: r) = false := Bool.eq_false_iff.mpr hA
      have hctr : ipAt prev (c :: r) = some n' := by
        apply (ipAt_some_iff _ _ _).mpr
        refine ⟨hbl, hAf, g1, g2, g3, g4, b11, b13, b21, b23, b31, b33, b41, b43, hn, ?_,
          ?_, ?_, ?_, ?_, ?_, ?_, ?_, ?_⟩
        · simp only [List.length_cons]
          omega
        · intro j hj
          have := hd1 j hj
          rwa [hpos j (by omega)] at this
        · have := hdot1
          rwa [hpos g1 (by omega)] at this
        · intro j hj
          have := hd2 j hj
          rwa [hpos _ (by omega)] at this
        · have := hdot2
          rwa [hpos _ (by omega)] at this
        · intro j hj
          have := hd3 j hj
          rwa [hpos _ (by omega)] at this
        · have := hdot3
          rwa [hpos _ (by omega)] at this
        · intro j hj
          have := hd4 j hj
          rwa [hpos _ (by omega)] at this
        · have := hw
          rwa [hpos n' (by omega)] at this
      rw [hm] at hctr
      exact absurd hctr (by simp)

end GitMirror

namespace GitMirror

/-- Output of the IP scan admits no IP match at any position. -/
theorem goI_noIP (f : Nat) : ∀ prev s, s.length ≤ f → noIPFrom prev (goI f prev s) := by
  induction f with
  | zero =>
    intro prev s hf
    have : s = [] := List.eq_nil_of_length_eq_zero (Nat.le_zero.mp hf)
    subst this
    exact trivial
  | succ f ih =>
    intro prev s hf
    cases s with
    | nil => exact trivial
    | cons c r =>
      cases hm : ipAt prev (c :: r) with
      | some n =>
        have hn1 := ipAt_pos _ _ _ hm
        have hshape : goI (f + 1) prev (c :: r)
            = phI ++ goI f (some ((c :: r).getD (n - 1) c)) ((c :: r).drop n) := by
          simp [goI, hm]
        rw [hshape]
        have hlen : ((c :: r).drop n).length ≤ f := by
          simp only [List.length_drop, List.length_cons]
          simp only [List.length_cons] at hf
          omega
        have hXbase := ih (some ((c :: r).getD (n - 1) c)) ((c :: r).drop n) hlen
        have htail : wordChar ((c :: r).getD n ' ') = false := ipAt_trailing _ _ _ hm
        have hd : ((goI f (some ((c :: r).getD (n - 1) c)) ((c :: r).drop n)).getD 0 ' ').isDigit
            = false := by
          rcases goI_head f (some ((c :: r).getD (n - 1) c)) ((c :: r).drop n) with hh | hh
          · rw [hh]
            decide
          · rw [hh, getD_drop]
            by_cases hdig : ((c :: r).getD (n + 0) ' ').isDigit = true
            · exact absurd (digit_word _ hdig) (by simpa using htail)
            · simpa using hdig
        exact noIPFrom_append_nodigit phI prev _ (by decide)
          (fun pc => noIPFrom_change_prev _ _ pc hXbase (ipAt_head_nodigit pc _ hd))
      | none =>
        have hshape : goI (f + 1) prev (c :: r) = c :: goI f (some c) r := by
          simp [goI, hm]
        rw [hshape]
        refine ⟨?_, ih (some c) r (by simp only [List.length_cons] at hf; omega)⟩
        rcases goI_decomp f (some c) r with he | ⟨k, rest, m, hkk, he, hmat⟩
        · rw [he]
          exact hm
        · rw [he]
          show ipAt prev ((c :: r.take k) ++ '<' :: rest) = none
          have hb := ipAt_bdryL _ _ _ hmat
          have hword : wordChar ((c :: r).getD k ' ') = false := by
            cases k with
            | zero =>
              simpa [bdryL, Bool.not_eq_true'] using hb
            | succ k0 =>
              simpa [bdryL, Bool.not_eq_true'] using hb
          exact ipAt_no_new prev c r k rest hkk hm hword

end GitMirror

namespace GitMirror

/-- C4: redaction is idempotent — for every text `T`,
`redact_content (redact_content T) = redact_content T` — and redaction of the
empty text returns the empty text (rather than failing). -/
theorem redact_content_idem :
    (∀ t : List Char, redact_content (redact_content t) = redact_content t) ∧
    redact_content [] = [] := by
  constructor
  · intro t
    by_cases ht : t.isEmpty
    · have h0 : redact_content t = [] := by simp [redact_content, ht]
      rw [h0]
      rfl
    · have hval : redact_content t = scanIP (scanPhone (scanEmail t)) := by
        simp [redact_content, ht]
      rw [hval]
      have hE : noEmailAll (scanIP (scanPhone (scanEmail t))) := by
        have e1 : noEmailAll (scanEmail t) := goE_noEmail t.length t (le_refl _)
        have e2 : noEmailAll (scanPhone (scanEmail t)) :=
          goP_noEmail (scanEmail t).length none (scanEmail t) (le_refl _) e1
        exact goI_noEmail (scanPhone (scanEmail t)).length none _ (le_refl _) e2
      have hP : noPhoneFrom none (scanIP (scanPhone (scanEmail t))) := by
        have p1 : noPhoneFrom none (scanPhone (scanEmail t)) :=
          goP_noPhone (scanEmail t).length none (scanEmail t) (le_refl _)
        exact goI_noPhone (scanPhone (scanEmail t)).length none _ (le_refl _) p1
      have hI : noIPFrom none (scanIP (scanPhone (scanEmail t))) :=
        goI_noIP (scanPhone (scanEmail t)).length none _ (le_refl _)
      by_cases hu0 : (scanIP (scanPhone (scanEmail t))).isEmpty
      · have hnil : scanIP (scanPhone (scanEmail t)) = [] := by
          simpa [List.isEmpty_iff] using hu0
        rw [hnil]
        rfl
      · have hred : redact_content (scanIP (scanPhone (scanEmail t)))
            = scanIP (scanPhone (scanEmail (scanIP (scanPhone (scanEmail t))))) := by
          simp [redact_content, hu0]
        rw [hred]
        rw [show scanEmail (scanIP (scanPhone (scanEmail t)))
            = scanIP (scanPhone (scanEmail t)) from goE_id _ _ hE]
        rw [show scanPhone (scanIP (scanPhone (scanEmail t)))
            = scanIP (scanPhone (scanEmail t)) from goP_id _ none _ hP]
        exact goI_id _ none _ hI
  · rfl

end GitMirror
